import Mathlib

/-!
Verification of the metadata extraction subsystem of go-trafilatura
(`src/metadata.go`).

The Go source is shallowly embedded: the HTML document is a tree of
elements with attributes and text nodes (the code consumes the parsed
tree only through `dom.QuerySelectorAll` / `dom.GetAttribute` /
`dom.TextContent`, all of which are reproduced here for the concrete
selectors the code uses); JSON+LD payloads are a tagged tree with
objects as association lists (Go decodes them into
`map[string]interface\x7b\x7d`; the list order stands for the iteration
order that a Go `range` over the map realizes, which Go leaves
unspecified); Go strings are Lean strings, handled mostly through their
`List Char` representation, and `utf8.RuneCountInString` is
`String.length`.

Helper functions of the repository that are not part of
`src/metadata.go` (`strNormalize`, `strOr`, `strIn`, `getRune`,
`strWordCount`, `isAbsoluteURL`, `createAbsoluteURL`,
`extractDomainURL`, and the four selector tables) are modelled from the
spec; each such definition carries a doc comment starting with
`Modelled from the spec:`.  Unicode case operations are modelled on the
ASCII fragment.
-/

namespace Trafilatura

/-! ## String helpers -/

/-- Whitespace test used throughout; covers the ASCII whitespace class
of Go `unicode.IsSpace` / regexp `\s`. -/
def isWsChar (c : Char) : Bool :=
  c = ' ' || c = '\t' || c = '\n' || c = '\r' || c = '\x0b' || c = '\x0c'

/-- Drop leading whitespace from a character list. -/
def dropWs : List Char → List Char
  | [] => []
  | c :: rest => if isWsChar c then dropWs rest else c :: rest

/-- Embeds Go `strings.TrimSpace` (ASCII whitespace fragment). -/
def strTrimSpace (s : String) : String :=
  String.mk ((dropWs (dropWs s.data.reverse).reverse))

/-- Split a character list into its maximal whitespace-free words,
accumulating the current word in reverse; embeds `strings.Fields`. -/
def wordsAux : List Char → List Char → List (List Char)
  | [], [] => []
  | [], cur => [cur.reverse]
  | c :: rest, cur =>
      if isWsChar c then
        match cur with
        | [] => wordsAux rest []
        | _ => cur.reverse :: wordsAux rest []
      else wordsAux rest (c :: cur)

/-- Join character-list words with single spaces. -/
def joinWords : List (List Char) → List Char
  | [] => []
  | [w] => w
  | w :: rest => w ++ ' ' :: joinWords rest

/-- Modelled from the spec: the missing shared helper `strNormalize`
("normalization (whitespace collapse)", "whitespace-normalized"):
collapse every whitespace run to a single space and trim the ends,
i.e. join the fields of the string with single spaces. -/
def strNormalize (s : String) : String :=
  String.mk (joinWords (wordsAux s.data []))

/-- Modelled from the spec: the missing shared helper `strOr` returns
the first non-empty of its two arguments (used as `fill_if_empty`). -/
def strOr (a b : String) : String :=
  if a ≠ "" then a else b

/-- Modelled from the spec: the missing shared helper `strIn` tests
membership of a string in a list of candidates. -/
def strIn (s : String) (candidates : List String) : Bool :=
  candidates.contains s

/-- Modelled from the spec: the missing shared helper `getRune` returns
the rune at a given index (it is only called with index 0 on a
non-empty string); out of range gives the zero rune. -/
def getRune (s : String) (i : Nat) : Char :=
  s.data.getD i (Char.ofNat 0)

/-- Modelled from the spec: the missing shared helper `strWordCount`
counts the whitespace-separated words of a string. -/
def strWordCount (s : String) : Nat :=
  (wordsAux s.data []).length

/-- Character membership in a string. -/
def hasChar (s : String) (c : Char) : Bool :=
  s.data.contains c

/-- List version of a starts-with test. -/
def listLeads : List Char → List Char → Bool
  | [], _ => true
  | _, [] => false
  | p :: ps, c :: cs => p = c && listLeads ps cs

/-- Embeds Go `strings.HasPrefix s pre` as a test on character lists. -/
def strLeads (s pre : String) : Bool :=
  listLeads pre.data s.data

/-- Substring occurrence on character lists (Go `strings.Contains`). -/
def occursInList (needle : List Char) : List Char → Bool
  | [] => listLeads needle []
  | c :: cs => listLeads needle (c :: cs) || occursInList needle cs

/-- Embeds Go `strings.Contains`. -/
def strHas (s sub : String) : Bool :=
  occursInList sub.data s.data

/-- ASCII lower-casing of one character, embedding `strings.ToLower`
on the ASCII fragment. -/
def lowChar (c : Char) : Char :=
  if 65 ≤ c.toNat ∧ c.toNat ≤ 90 then Char.ofNat (c.toNat + 32) else c

/-- Embeds Go `strings.ToLower` (ASCII fragment). -/
def strToLower (s : String) : String :=
  String.mk (s.data.map lowChar)

/-- ASCII upper-casing of one character, embedding `unicode.ToTitle`
as used by `strings.Title` (ASCII fragment). -/
def upChar (c : Char) : Char :=
  if h : 97 ≤ c.toNat ∧ c.toNat ≤ 122 then
    Char.ofNatAux (c.toNat - 32) (Or.inl (by omega))
  else c

/-- Word separator test of Go `strings.Title` (`isSeparator`): a rune
that is neither a letter, a digit nor an underscore (ASCII fragment). -/
def isSepChar (c : Char) : Bool :=
  !(('a' ≤ c && c ≤ 'z') || ('A' ≤ c && c ≤ 'Z') || ('0' ≤ c && c ≤ '9') || c = '_')

/-- Character-list worker for `strings.Title`: upper-case every
character that follows a separator, threading the previous character. -/
def titleAux (prev : Char) : List Char → List Char
  | [] => []
  | c :: rest => (if isSepChar prev then upChar c else c) :: titleAux c rest

/-- Embeds Go `strings.Title`: title-case each word of the string (the
previous character starts out as a space, so the first character is
always treated as a word start). -/
def strTitle (s : String) : String :=
  String.mk (titleAux ' ' s.data)

/-! ## The Metadata record (`src/metadata.go` lines 34-44) -/

/-- Embeds the Go struct `Metadata`.  `Date` is stubbed in the source
(publish dates are deferred to an external library), so it stays a
string that is never written. -/
structure Metadata where
  Title       : String := ""
  Author      : String := ""
  URL         : String := ""
  Hostname    : String := ""
  Description : String := ""
  Sitename    : String := ""
  Date        : String := ""
  Categories  : List String := []
  Tags        : List String := []
deriving Repr, DecidableEq

/-- The zero value of `Metadata` (Go `var metadata Metadata`). -/
def emptyMetadata : Metadata := {}

/-! ## The HTML document model

The extractor consumes the parsed page only through the go-shiori/dom
helpers.  `HNode` is the parsed tree; the selector queries that the
source issues are reproduced as dedicated functions below. -/

/-- A parsed HTML node: an element with a tag name, an attribute list
and children, or a text node. -/
inductive HNode where
  | elem (tag : String) (attrs : List (String × String)) (children : List HNode)
  | text (s : String)
deriving Repr

/-- Attribute lookup; embeds `dom.GetAttribute`, which returns the
empty string when the attribute is absent. -/
def getAttr (node : HNode) (name : String) : String :=
  match node with
  | .text _ => ""
  | .elem _ attrs _ => ((attrs.lookup name).getD "")

/-- Attribute presence test (CSS `[attr]` selector part). -/
def hasAttr (node : HNode) (name : String) : Bool :=
  match node with
  | .text _ => false
  | .elem _ attrs _ => (attrs.lookup name).isSome

/-- Tag test for element nodes. -/
def isTag (node : HNode) (t : String) : Bool :=
  match node with
  | .elem tag _ _ => tag = t
  | .text _ => false

/-- Direct children of a node. -/
def childrenOf : HNode → List HNode
  | .elem _ _ children => children
  | .text _ => []

mutual
/-- Embeds `dom.TextContent`: concatenation of all text descendants. -/
def textContent : HNode → String
  | .text s => s
  | .elem _ _ children => textContentList children
/-- Text content of a node list, in order. -/
def textContentList : List HNode → String
  | [] => ""
  | n :: rest => textContent n ++ textContentList rest
end

mutual
/-- All nodes of the subtree in document (pre-)order, root included. -/
def allNodes : HNode → List HNode
  | .text s => [.text s]
  | .elem tag attrs children => .elem tag attrs children :: allNodesList children
/-- All nodes of a forest in document order. -/
def allNodesList : List HNode → List HNode
  | [] => []
  | n :: rest => allNodes n ++ allNodesList rest
end

/-- Embeds `dom.QuerySelectorAll` for a simple node predicate: all
matching nodes of the tree in document order. -/
def queryAll (doc : HNode) (p : HNode → Bool) : List HNode :=
  (allNodes doc).filter p

/-- Embeds `dom.QuerySelector`: first match in document order. -/
def queryFirst (doc : HNode) (p : HNode → Bool) : Option HNode :=
  (queryAll doc p).head?

/-- Selector `meta[content]`. -/
def queryMetaContent (doc : HNode) : List HNode :=
  queryAll doc (fun n => isTag n "meta" && hasAttr n "content")

/-- Selector `meta[property^="og:"]`. -/
def queryMetaOg (doc : HNode) : List HNode :=
  queryAll doc (fun n => isTag n "meta" && strLeads (getAttr n "property") "og:")

/-- Selector `script[type="T"]`. -/
def queryScripts (doc : HNode) (t : String) : List HNode :=
  queryAll doc (fun n => isTag n "script" && getAttr n "type" = t)

/-- All nodes that are proper descendants of some `head` element, in
document order per head (used for the `head X` descendant selectors). -/
def headDescendants (doc : HNode) : List HNode :=
  (queryAll doc (fun n => isTag n "head")).flatMap
    (fun h => allNodesList (childrenOf h))

/-- Selector `head > title`: `title` elements that are direct children
of a `head` element. -/
def queryHeadDirectTitle (doc : HNode) : Option HNode :=
  ((queryAll doc (fun n => isTag n "head")).flatMap
    (fun h => (childrenOf h).filter (fun c => isTag c "title"))).head?

/-- Selector `head link[rel="R"]` (descendant combinator). -/
def queryHeadLinksRel (doc : HNode) (r : String) : List HNode :=
  (headDescendants doc).filter (fun n => isTag n "link" && getAttr n "rel" = r)

/-- Selector `head meta[content]`. -/
def queryHeadMetaContent (doc : HNode) : List HNode :=
  (headDescendants doc).filter (fun n => isTag n "meta" && hasAttr n "content")

/-- Selector `head meta[property="article:section"]`. -/
def queryHeadMetaArticleSection (doc : HNode) : Option HNode :=
  ((headDescendants doc).filter
    (fun n => isTag n "meta" && getAttr n "property" = "article:section")).head?

/-! ## URL helpers (modelled from the spec) -/

/-- ASCII letter test. -/
def isAlphaChar (c : Char) : Bool :=
  ('a' ≤ c && c ≤ 'z') || ('A' ≤ c && c ≤ 'Z')

/-- Split a character list at the first occurrence of a separator,
returning the part before and the part after the separator. -/
def breakOnList (sep : List Char) : List Char → Option (List Char × List Char)
  | [] => none
  | c :: cs =>
      if listLeads sep (c :: cs) then some ([], (c :: cs).drop sep.length)
      else
        match breakOnList sep cs with
        | some (pre, post) => some (c :: pre, post)
        | none => none

/-- Modelled from the spec: the missing helper `isAbsoluteURL`
("absolute-URL test", "has scheme + host"): a non-empty all-letter
scheme, the literal `://`, and a non-empty host before the next `/`. -/
def isAbsoluteURL (s : String) : Bool :=
  match breakOnList "://".data s.data with
  | some (scheme, rest) =>
      scheme ≠ [] && scheme.all isAlphaChar && (rest.takeWhile (· ≠ '/')) ≠ []
  | none => false

/-- Scheme and host part of a URL string (`scheme://host`), empty if
the string has no `://`. -/
def urlOrigin (s : String) : String :=
  match breakOnList "://".data s.data with
  | some (scheme, rest) => String.mk (scheme ++ "://".data ++ rest.takeWhile (· ≠ '/'))
  | none => ""

/-- The URL up to and including its last `/` (directory part), used as
the base of a non-rooted relative reference. -/
def urlDirPart (s : String) : String :=
  match (s.data.reverse.dropWhile (· ≠ '/')) with
  | [] => s ++ "/"
  | rev => String.mk rev.reverse

/-- Modelled from the spec: the missing helper `createAbsoluteURL`
("relative→absolute resolution"): an absolute URL is kept; a rooted
reference is glued onto the origin of the base; any other reference is
glued onto the directory part of the base; without a base the input is
returned unchanged. -/
def createAbsoluteURL (url : String) (base : Option String) : String :=
  match base with
  | none => url
  | some b =>
      if isAbsoluteURL url then url
      else if strLeads url "/" then urlOrigin b ++ url
      else urlDirPart b ++ url

/-- Modelled from the spec: the missing helper `extractDomainURL`
("domain extraction" for the Hostname field): the host part between
`://` and the next `/`, empty if the URL has no scheme part. -/
def extractDomainURL (url : String) : String :=
  match breakOnList "://".data url.data with
  | some (_, rest) => String.mk (rest.takeWhile (· ≠ '/'))
  | none => ""

/-! ## Author validation (`src/metadata.go` lines 723-738) -/

/-- Embeds `rxJsonSymbol = [{\\}]`: the string holds a brace or a
backslash. -/
def rxJsonSymbolMatch (s : String) : Bool :=
  hasChar s '\x7b' || hasChar s '\\' || hasChar s '\x7d'

/-- Embeds `validateMetadataAuthor`: an author candidate is replaced by
the empty string when it has no space, starts with `http`, or holds
JSON punctuation. -/
def validateMetadataAuthor (author : String) : String :=
  if author = "" then author
  else if !(strHas author " ") || strLeads author "http" then ""
  else if rxJsonSymbolMatch author then ""
  else author

/-! ## OpenGraph extractor (`src/metadata.go` lines 210-245) -/

/-- One step of the OpenGraph scan: the body of the loop over
`meta[property^="og:"]` nodes in `extractOpenGraphMeta`. -/
def ogStep (metadata : Metadata) (node : HNode) : Metadata :=
  let propName := strNormalize (getAttr node "property")
  let content := strNormalize (getAttr node "content")
  if content = "" then metadata
  else if propName = "og:site_name" then { metadata with Sitename := content }
  else if propName = "og:title" then { metadata with Title := content }
  else if propName = "og:description" then { metadata with Description := content }
  else if propName = "og:author" || propName = "og:article:author" then
    { metadata with Author := content }
  else if propName = "og:url" then
    (if isAbsoluteURL content then { metadata with URL := content } else metadata)
  else metadata

/-- Embeds `extractOpenGraphMeta`. -/
def extractOpenGraphMeta (doc : HNode) : Metadata :=
  (queryMetaOg doc).foldl ogStep emptyMetadata

/-! ## Meta-tag scanner (`src/metadata.go` lines 120-208) -/

/-- Embeds `metaNameAuthor`. -/
def metaNameAuthor : List String :=
  ["author", "byl", "dc.creator", "dcterms.creator", "sailthru.author"]

/-- Embeds `metaNameTitle`. -/
def metaNameTitle : List String :=
  ["title", "dc.title", "dcterms.title", "fb_title", "sailthru.title", "twitter:title"]

/-- Embeds `metaNameDescription`. -/
def metaNameDescription : List String :=
  ["description", "dc.description", "dcterms.description", "dc:description",
   "sailthru.description", "twitter:description"]

/-- Embeds `metaNamePublisher`. -/
def metaNamePublisher : List String :=
  ["copyright", "dc.publisher", "dcterms.publisher", "publisher"]

/-- The `property` section of the meta-tag scan loop (lines 145-155). -/
def metaScanProperty (metadata : Metadata) (property content : String) : Metadata :=
  if strLeads property "og:" then metadata
  else if property = "article:tag" then
    { metadata with Tags := metadata.Tags ++ [content] }
  else if strIn property ["author", "article:author"] then
    { metadata with Author := strOr metadata.Author content }
  else metadata

/-- The `name` section of the meta-tag scan loop (lines 157-181); the
second state component is the deferred `tmpSitename`. -/
def metaScanName (st : Metadata × String) (name content : String) : Metadata × String :=
  let metadata := st.1
  if strIn name metaNameAuthor then
    ({ metadata with Author := strOr metadata.Author content }, st.2)
  else if strIn name metaNameTitle then
    ({ metadata with Title := strOr metadata.Title content }, st.2)
  else if strIn name metaNameDescription then
    ({ metadata with Description := strOr metadata.Description content }, st.2)
  else if strIn name metaNamePublisher then
    ({ metadata with Sitename := strOr metadata.Sitename content }, st.2)
  else if strIn name ["twitter:site", "application-name"] || strHas name "twitter:app:name" then
    (metadata, content)
  else if name = "twitter:url" then
    (if metadata.URL = "" && isAbsoluteURL content then
       ({ metadata with URL := content }, st.2)
     else (metadata, st.2))
  else if name = "keywords" then
    ({ metadata with Tags := metadata.Tags ++ [content] }, st.2)
  else (metadata, st.2)

/-- The `itemprop` section of the meta-tag scan loop (lines 183-197). -/
def metaScanItemprop (metadata : Metadata) (itemprop content : String) : Metadata :=
  if itemprop = "author" then { metadata with Author := strOr metadata.Author content }
  else if itemprop = "description" then
    { metadata with Description := strOr metadata.Description content }
  else if itemprop = "headline" then
    { metadata with Title := strOr metadata.Title content }
  else metadata

/-- One step of the meta-tag scan: the body of the loop over
`meta[content]` nodes in `processMetaTags` (lines 133-198),
classifying by `property`, then `name`, then `itemprop`; the state is
the metadata record together with the deferred `tmpSitename`. -/
def metaScanStep (st : Metadata × String) (node : HNode) : Metadata × String :=
  let content := strNormalize (getAttr node "content")
  if content = "" then st
  else
    let property := strNormalize (getAttr node "property")
    if property ≠ "" then (metaScanProperty st.1 property content, st.2)
    else
      let name := strNormalize (strToLower (getAttr node "name"))
      if name ≠ "" then metaScanName st name content
      else
        let itemprop := strNormalize (getAttr node "itemprop")
        if itemprop ≠ "" then (metaScanItemprop st.1 itemprop content, st.2)
        else st

/-- The early-return test of `processMetaTags` (lines 126-127): all of
Title, Author, URL, Description and Sitename assigned by OpenGraph. -/
def ogAllFive (m : Metadata) : Bool :=
  m.Title ≠ "" && m.Author ≠ "" && m.URL ≠ "" && m.Description ≠ "" && m.Sitename ≠ ""

/-- Embeds `processMetaTags`: bootstrap from OpenGraph; return it
unchanged when the five fields are filled; otherwise scan all
`meta[content]` nodes, adopt the deferred sitename when needed, and
validate the author. -/
def processMetaTags (doc : HNode) : Metadata :=
  let metadata := extractOpenGraphMeta doc
  if ogAllFive metadata then metadata
  else
    let st := (queryMetaContent doc).foldl metaScanStep (metadata, "")
    let m := st.1
    let m := if m.Sitename = "" && st.2 ≠ "" then { m with Sitename := st.2 } else m
    { m with Author := validateMetadataAuthor m.Author }

/-! ## JSON values

Go decodes JSON+LD into `map[string]interface\x7b\x7d`.  Objects are
association lists with distinct keys; the list order stands for the
iteration order realized by a Go `range` over the map, which the Go
specification leaves undefined (and the runtime randomizes). -/

/-- A decoded JSON value.  Numbers keep their raw text: the extractor
only ever asks whether a value is a string, an object or an array. -/
inductive Json where
  | null
  | bool (b : Bool)
  | num (raw : String)
  | str (s : String)
  | arr (items : List Json)
  | obj (fields : List (String × Json))

/-- Go map lookup `obj[key]` (keys are distinct by construction). -/
def jLookup (fields : List (String × Json)) (key : String) : Option Json :=
  fields.lookup key

/-- Go map insertion while decoding: a repeated key overwrites the
previous value. -/
def objInsert (fields : List (String × Json)) (k : String) (v : Json) :
    List (String × Json) :=
  match fields with
  | [] => [(k, v)]
  | (k2, v2) :: rest =>
      if k2 = k then (k2, v) :: rest else (k2, v2) :: objInsert rest k v

/-! ## JSON parsing (`encoding/json` syntax, fuel-bounded)

The fuel passed by `parseJson` exceeds any possible recursion depth:
every two nested calls consume at least one input character. -/

/-- ASCII digit test. -/
def isDigitChar (c : Char) : Bool :=
  '0' ≤ c && c ≤ '9'

/-- Characters that may continue a JSON number literal. -/
def isNumChar (c : Char) : Bool :=
  isDigitChar c || c = '-' || c = '+' || c = '.' || c = 'e' || c = 'E'

/-- Value of one hexadecimal digit. -/
def hexVal (c : Char) : Option Nat :=
  if isDigitChar c then some (c.toNat - 48)
  else if 'a' ≤ c ∧ c ≤ 'f' then some (c.toNat - 87)
  else if 'A' ≤ c ∧ c ≤ 'F' then some (c.toNat - 55)
  else none

/-- Parse exactly four hexadecimal digits (the `\u` escape). -/
def parseHex4 : List Char → Option (Nat × List Char)
  | a :: b :: c :: d :: rest =>
      match hexVal a, hexVal b, hexVal c, hexVal d with
      | some x, some y, some z, some w => some (((x * 16 + y) * 16 + z) * 16 + w, rest)
      | _, _, _, _ => none
  | _ => none

/-- Parse the body of a JSON string after the opening quote, handling
escapes; returns the decoded string and the rest of the input. -/
def parseStringBody : Nat → List Char → List Char → Option (String × List Char)
  | 0, _, _ => none
  | _ + 1, [], _ => none
  | fuel + 1, c :: cs, acc =>
      if c = '"' then some (String.mk acc.reverse, cs)
      else if c = '\\' then
        match cs with
        | [] => none
        | e :: cs2 =>
            if e = '"' || e = '\\' || e = '/' then parseStringBody fuel cs2 (e :: acc)
            else if e = 'n' then parseStringBody fuel cs2 ('\n' :: acc)
            else if e = 't' then parseStringBody fuel cs2 ('\t' :: acc)
            else if e = 'r' then parseStringBody fuel cs2 ('\r' :: acc)
            else if e = 'b' then parseStringBody fuel cs2 ('\x08' :: acc)
            else if e = 'f' then parseStringBody fuel cs2 ('\x0c' :: acc)
            else if e = 'u' then
              match parseHex4 cs2 with
              | some (n, cs3) => parseStringBody fuel cs3 (Char.ofNat n :: acc)
              | none => none
            else none
      else parseStringBody fuel cs (c :: acc)

mutual
/-- Parse one JSON value, skipping leading whitespace. -/
def parseVal : Nat → List Char → Option (Json × List Char)
  | 0, _ => none
  | fuel + 1, cs =>
      match dropWs cs with
      | [] => none
      | c :: rest =>
          if c = '"' then
            match parseStringBody fuel rest [] with
            | some (s, r) => some (.str s, r)
            | none => none
          else if c = 't' then
            if listLeads "rue".data rest then some (.bool true, rest.drop 3) else none
          else if c = 'f' then
            if listLeads "alse".data rest then some (.bool false, rest.drop 4) else none
          else if c = 'n' then
            if listLeads "ull".data rest then some (.null, rest.drop 3) else none
          else if c = '[' then
            match dropWs rest with
            | ']' :: r => some (.arr [], r)
            | r => parseArrLoop fuel r []
          else if c = '\x7b' then
            match dropWs rest with
            | '\x7d' :: r => some (.obj [], r)
            | r => parseObjLoop fuel r []
          else
            let numrun := (c :: rest).takeWhile isNumChar
            if numrun ≠ [] && (c = '-' || isDigitChar c) then
              some (.num (String.mk numrun), (c :: rest).drop numrun.length)
            else none

/-- Parse the elements of a non-empty array (after `[`). -/
def parseArrLoop : Nat → List Char → List Json → Option (Json × List Char)
  | 0, _, _ => none
  | fuel + 1, cs, acc =>
      match parseVal fuel cs with
      | none => none
      | some (v, r) =>
          match dropWs r with
          | ',' :: r2 => parseArrLoop fuel r2 (v :: acc)
          | ']' :: r2 => some (.arr (v :: acc).reverse, r2)
          | _ => none

/-- Parse the members of a non-empty object (after the opening brace). -/
def parseObjLoop : Nat → List Char → List (String × Json) → Option (Json × List Char)
  | 0, _, _ => none
  | fuel + 1, cs, acc =>
      match dropWs cs with
      | '"' :: r =>
          match parseStringBody fuel r [] with
          | some (k, r2) =>
              match dropWs r2 with
              | ':' :: r3 =>
                  match parseVal fuel r3 with
                  | some (v, r4) =>
                      let acc2 := objInsert acc k v
                      match dropWs r4 with
                      | ',' :: r5 => parseObjLoop fuel r5 acc2
                      | '\x7d' :: r5 => some (.obj acc2, r5)
                      | _ => none
                  | none => none
              | _ => none
          | none => none
      | _ => none
end

/-- Parse a complete JSON document: one value with only whitespace
around it. -/
def parseJson (s : String) : Option Json :=
  match parseVal (4 * s.data.length + 16) s.data with
  | some (j, rest) => if dropWs rest = [] then some j else none
  | none => none

/-- Embeds the decode step of `extractJsonLd` (lines 260-271): trim the
script text and skip empty scripts; `json.Unmarshal` into a map accepts
a top-level object (filling the map) or a top-level `null` (leaving the
freshly allocated map empty, with no error); every other top-level
shape, and every syntax error, fails, and the script is skipped. -/
def scriptPayloadOfText (text : String) : Option (List (String × Json)) :=
  let t := strTrimSpace text
  if t = "" then none
  else
    match parseJson t with
    | some (.obj fields) => some fields
    | some .null => some []
    | _ => none

/-! ## Recursive search for articles and persons (lines 277-316) -/

/-- Article test of `findImportantObjects`: the `@type` string contains
`Article` or equals `SocialMediaPosting` or `Report`. -/
def isArticleTypeStr (t : String) : Bool :=
  strHas t "Article" || t = "SocialMediaPosting" || t = "Report"

mutual
/-- The loop of `findImportantObjects` over the values of an object
whose own type matched nothing: descend into object values and into
object items of array values. -/
def fioFields : List (String × Json) →
    List (List (String × Json)) × List (List (String × Json))
  | [] => ([], [])
  | (_, v) :: rest =>
      let a := fioVal v
      let b := fioFields rest
      (a.1 ++ b.1, a.2 ++ b.2)

/-- Embeds `findImportantObjects` on one value: an object whose string
`@type` is article-like is collected as an article (no further
descent), `Person` as a person; any other object is searched field by
field; an array is searched item by item; scalars hold nothing.  The
result is the pair (articles, persons) in traversal order. -/
def fioVal : Json → List (List (String × Json)) × List (List (String × Json))
  | .obj fields =>
      (match jLookup fields "@type" with
       | some (.str t) =>
           if isArticleTypeStr t then ([fields], [])
           else if t = "Person" then ([], [fields])
           else fioFields fields
       | _ => fioFields fields)
  | .arr items => fioItems items
  | _ => ([], [])

/-- The array branch of the `findImportantObjects` loop: only items
that are objects are visited. -/
def fioItems : List Json → List (List (String × Json)) × List (List (String × Json))
  | [] => ([], [])
  | .obj fields :: rest =>
      let a := fioVal (.obj fields)
      let b := fioItems rest
      (a.1 ++ b.1, a.2 ++ b.2)
  | _ :: rest => fioItems rest
end

/-! ## Extraction from decoded JSON things (lines 403-479) -/

/-- Embeds `extractJsonString`: a JSON string is normalized, any other
value gives the empty string. -/
def extractJsonString (iface : Json) : String :=
  match iface with
  | .str s => strNormalize s
  | _ => ""

/-- Capture group of `rxNameJson`: a non-empty run of characters other
than a quote or a backslash. -/
def rxNameJsonCap (cs : List Char) : Option String :=
  let run := cs.takeWhile (fun c => c ≠ '"' && c ≠ '\\')
  if run = [] then none else some (String.mk run)

/-- Tail of `rxNameJson` after the colon: ` ?\\?"` then the capture;
each optional is greedy with fallback. -/
def rxNameJsonAfterColon (cs : List Char) : Option String :=
  let step3 : List Char → Option String := fun cs3 =>
    match cs3 with
    | '"' :: r => rxNameJsonCap r
    | _ => none
  let step2 : List Char → Option String := fun cs2 =>
    (match cs2 with
     | '\\' :: r => step3 r
     | _ => none) <|> step3 cs2
  (match cs with
   | ' ' :: r => step2 r
   | _ => none) <|> step2 cs

/-- Middle of `rxNameJson` after the literal `nam`: `e?\\?":` then the
tail; optionals are greedy with fallback, letters case-insensitive. -/
def rxNameJsonAfterNam (cs : List Char) : Option String :=
  let afterBS : List Char → Option String := fun cs3 =>
    match cs3 with
    | '"' :: ':' :: r => rxNameJsonAfterColon r
    | _ => none
  let afterE : List Char → Option String := fun cs2 =>
    (match cs2 with
     | '\\' :: r => afterBS r
     | _ => none) <|> afterBS cs2
  (match cs with
   | c :: r => if lowChar c = 'e' then afterE r else none
   | _ => none) <|> afterE cs

/-- Try `rxNameJson` at one position: the literal `"nam` (letters
case-insensitive) followed by the middle part. -/
def rxNameJsonAt (cs : List Char) : Option String :=
  match cs with
  | '"' :: n :: a :: m :: r =>
      if lowChar n = 'n' && lowChar a = 'a' && lowChar m = 'm' then
        rxNameJsonAfterNam r
      else none
  | _ => none

/-- Embeds `rxNameJson.FindStringSubmatch`: the capture of the leftmost
match of `(?i)"name?\\?": ?\\?"([^"\\]+)`. -/
def rxNameJsonFind : List Char → Option String
  | [] => none
  | c :: cs =>
      match rxNameJsonAt (c :: cs) with
      | some s => some s
      | none => rxNameJsonFind cs

/-- The `name` extraction common to the object and array branches of
`extractJsonThingName` (`val["name"]` fed to `extractJsonString`). -/
def objName (fields : List (String × Json)) : String :=
  match jLookup fields "name" with
  | some iName => extractJsonString iName
  | none => ""

/-- The array branch of `extractJsonThingName`: strings are normalized
and always appended; objects contribute their `name` only when it is
non-empty. -/
def thingArrayNames : List Json → List String
  | [] => []
  | .str s :: rest => strNormalize s :: thingArrayNames rest
  | .obj fields :: rest =>
      (match jLookup fields "name" with
       | some iName =>
           let name := extractJsonString iName
           if name ≠ "" then name :: thingArrayNames rest else thingArrayNames rest
       | none => thingArrayNames rest)
  | _ :: rest => thingArrayNames rest

/-- Embeds `extractJsonThingName`.  A string with JSON punctuation is
recovered through `rxNameJson`; an object must pass the allowed-type
check only when a string `@type` is present, and then yields its
`name`; an array merges the names of its entries with `"; "`. -/
def extractJsonThingName (iface : Json) (allowedTypes : List String) : String :=
  match iface with
  | .str val =>
      if rxJsonSymbolMatch val then
        match rxNameJsonFind val.data with
        | none => ""
        | some m => strNormalize m
      else strNormalize val
  | .obj fields =>
      (if allowedTypes ≠ [] then
        match jLookup fields "@type" with
        | some (.str t) => if !(strIn t allowedTypes) then "" else objName fields
        | _ => objName fields
      else objName fields)
  | .arr entries =>
      let names := thingArrayNames entries
      if names ≠ [] then String.intercalate "; " names else ""
  | _ => ""

/-- Embeds `extractJsonArticleThingName`: fetch the key and extract the
thing name from its value. -/
def extractJsonArticleThingName (article : List (String × Json)) (key : String)
    (allowedTypes : List String) : String :=
  match jLookup article key with
  | none => ""
  | some value => extractJsonThingName value allowedTypes

/-! ## Article processing and the script loop (lines 319-382) -/

/-- The headline fallback loop (lines 344-358): walk the article keys
in iteration order, taking the first value under a key containing
`headline` that extracts to a non-empty string without `...`. -/
def headlineLoop (title : String) : List (String × Json) → String
  | [] => title
  | (key, value) :: rest =>
      if !(strHas (strToLower key) "headline") then headlineLoop title rest
      else
        let t := extractJsonString value
        if t = "" || strHas t "..." then headlineLoop title rest
        else t

/-- Embeds the per-article body of the loop at lines 319-359: fill
Author (type-constrained to `Person`, then validated), Sitename (from
`publisher`), Categories (from `articleSection`), Title (from `name`,
then the headline fallback when empty or a single word). -/
def processArticle (metadata : Metadata) (article : List (String × Json)) : Metadata :=
  let metadata :=
    if metadata.Author = "" then
      { metadata with Author :=
          validateMetadataAuthor (extractJsonArticleThingName article "author" ["Person"]) }
    else metadata
  let metadata :=
    if metadata.Sitename = "" then
      { metadata with Sitename := extractJsonArticleThingName article "publisher" [] }
    else metadata
  let metadata :=
    if metadata.Categories = [] then
      match jLookup article "articleSection" with
      | some sectionVal =>
          { metadata with Categories := metadata.Categories ++ [extractJsonString sectionVal] }
      | none => metadata
    else metadata
  let metadata :=
    if metadata.Title = "" then
      match jLookup article "name" with
      | some name => { metadata with Title := extractJsonString name }
      | none => metadata
    else metadata
  if metadata.Title = "" || strWordCount metadata.Title = 1 then
    { metadata with Title := headlineLoop metadata.Title article }
  else metadata

/-- The early-termination test of the script loop (lines 378-381). -/
def jsonLdBreak (m : Metadata) : Bool :=
  m.Author ≠ "" && m.Sitename ≠ "" && m.Categories ≠ [] && m.Title ≠ ""

/-- Embeds the per-script body (lines 258-375): collect articles and
persons, process each article in order, then fall back to the collected
persons for the author. -/
def processScript (metadata : Metadata) (fields : List (String × Json)) : Metadata :=
  let ap := fioVal (.obj fields)
  let metadata := ap.1.foldl processArticle metadata
  if metadata.Author = "" then
    let names := ap.2.filterMap (fun person =>
      let personName := validateMetadataAuthor (extractJsonThingName (.obj person) [])
      if personName ≠ "" then some personName else none)
    if names ≠ [] then { metadata with Author := String.intercalate "; " names }
    else metadata
  else metadata

/-- The script loop with early termination: a `none` payload is a
skipped script (`continue`); after a processed script the loop breaks
as soon as Author, Sitename, Categories and Title are all found. -/
def processPayloads (metadata : Metadata) :
    List (Option (List (String × Json))) → Metadata
  | [] => metadata
  | none :: rest => processPayloads metadata rest
  | some fields :: rest =>
      let m2 := processScript metadata fields
      if jsonLdBreak m2 then m2 else processPayloads m2 rest

/-- Embeds the merge into the original metadata (lines 384-400):
author and non-empty categories override; the sitename overrides only
when strictly longer in runes; the title only fills a blank. -/
def jsonLdMerge (metadata originalMetadata : Metadata) : Metadata :=
  let o := { originalMetadata with Author := strOr metadata.Author originalMetadata.Author }
  let o := if metadata.Categories.length > 0 then { o with Categories := metadata.Categories } else o
  let o := if metadata.Sitename.length > o.Sitename.length then
             { o with Sitename := metadata.Sitename }
           else o
  if o.Title = "" then { o with Title := metadata.Title } else o

/-- The decoded payloads of all JSON+LD script nodes of the document,
in document order (`application/ld+json` before
`application/settings+json`, matching the append at line 254). -/
def scriptPayloads (doc : HNode) : List (Option (List (String × Json))) :=
  ((queryScripts doc "application/ld+json") ++
   (queryScripts doc "application/settings+json")).map
    (fun s => scriptPayloadOfText (textContent s))

/-- The body of `extractJsonLd` on already decoded payloads: run the script loop on
a scratch record, then merge into the original metadata. -/
def jsonLdFromPayloads (payloads : List (Option (List (String × Json))))
    (originalMetadata : Metadata) : Metadata :=
  jsonLdMerge (processPayloads emptyMetadata payloads) originalMetadata

/-- Embeds `extractJsonLd`. -/
def extractJsonLd (doc : HNode) (originalMetadata : Metadata) : Metadata :=
  jsonLdFromPayloads (scriptPayloads doc) originalMetadata

/-! ## Regex embeddings for the DOM extractors -/

/-- Word character of RE2 `\w`: ASCII letter, digit or underscore. -/
def isWordChar (c : Char) : Bool :=
  isDigitChar c || isAlphaChar c || c = '_'

/-- Letter class `(?i)[a-zäöüß]` of `rxAuthorCleaner1`. -/
def lowerLetterDE (c : Char) : Bool :=
  let l := lowChar c
  ('a' ≤ l && l ≤ 'z') || c = 'ä' || c = 'ö' || c = 'ü' || c = 'ß' ||
    c = 'Ä' || c = 'Ö' || c = 'Ü'

/-- The `by\s` branch of `rxAuthorCleaner1`, case-insensitive, returning
the remainder after the match. -/
def cleaner1By (cs : List Char) : Option (List Char) :=
  match cs with
  | b :: y :: w :: r =>
      if lowChar b = 'b' && lowChar y = 'y' && isWsChar w then some r else none
  | _ => none

/-- The `von\s` branch of `rxAuthorCleaner1`. -/
def cleaner1Von (cs : List Char) : Option (List Char) :=
  match cs with
  | v :: o :: n :: w :: r =>
      if lowChar v = 'v' && lowChar o = 'o' && lowChar n = 'n' && isWsChar w then some r
      else none
  | _ => none

/-- The part `(by|von)\s` with the alternation preferring `by`. -/
def cleaner1Core (cs : List Char) : Option (List Char) :=
  cleaner1By cs <|> cleaner1Von cs

/-- The part `\s?(by|von)\s`: the optional whitespace is greedy with fallback. -/
def cleaner1WsCore (cs : List Char) : Option (List Char) :=
  (match cs with
   | w :: r => if isWsChar w then cleaner1Core r else none
   | _ => none) <|> cleaner1Core cs

/-- One group candidate of `rxAuthorCleaner1` with a fixed inner-run
length `j ≥ 1`: try the `ed` suffix, then the `t` suffix, then the rest
of the pattern. -/
def cleaner1WithInner (cs : List Char) (j : Nat) : Option (List Char) :=
  (match cs.drop j with
   | e :: d :: r => if lowChar e = 'e' && lowChar d = 'd' then cleaner1WsCore r else none
   | _ => none)
  <|>
  (match cs.drop j with
   | t :: r => if lowChar t = 't' then cleaner1WsCore r else none
   | _ => none)

/-- Backtracking over the inner-run length of the optional group, from
longest (greedy) down to one; length zero means the group is absent. -/
def cleaner1Search : Nat → List Char → Option (List Char)
  | 0, cs => cleaner1WsCore cs
  | j + 1, cs => cleaner1WithInner cs (j + 1) <|> cleaner1Search j cs

/-- Embeds `rxAuthorCleaner1.ReplaceAllString(author, "")` for the
anchored pattern `(?i)^([a-zäöüß]+(ed|t))?\s?(by|von)\s`: at most one
match, at the start of the string. -/
def rxAuthorCleaner1Apply (s : String) : String :=
  match cleaner1Search (s.data.takeWhile lowerLetterDE).length s.data with
  | some remainder => String.mk remainder
  | none => s

/-- Worker of `rxAuthorCleaner2`: delete from the first digit that has
at least one character after it (the lazy `.+?` needs one character and
then extends to the anchored end). -/
def cleaner2Aux : List Char → List Char
  | [] => []
  | c :: rest => if isDigitChar c && rest ≠ [] then [] else c :: cleaner2Aux rest

/-- Embeds `rxAuthorCleaner2.ReplaceAllString(author, "")` for the
pattern `(?i)\d.+?$`. -/
def rxAuthorCleaner2Apply (s : String) : String :=
  String.mk (cleaner2Aux s.data)

/-- Worker of `rxAuthorCleaner3` for `(?i)[^\w]+$|( am| on)`: at each
position, a run of non-word characters reaching the end of the string
is deleted (left branch first), otherwise a literal ` am` / ` on` is
deleted and scanning continues. -/
def cleaner3Aux : List Char → List Char
  | [] => []
  | c :: rest =>
      if (c :: rest).all (fun x => !isWordChar x) then []
      else if c = ' ' then
        match rest with
        | x :: y :: r =>
            if (lowChar x = 'a' && lowChar y = 'm') || (lowChar x = 'o' && lowChar y = 'n') then
              cleaner3Aux r
            else c :: cleaner3Aux (x :: y :: r)
        | [x] => c :: cleaner3Aux [x]
        | [] => [c]
      else c :: cleaner3Aux rest

/-- Embeds `rxAuthorCleaner3.ReplaceAllString(author, "")`. -/
def rxAuthorCleaner3Apply (s : String) : String :=
  String.mk (cleaner3Aux s.data)

/-- Embeds `rxUrlCheck.MatchString` for `(?i)https?://|/`: the string
holds `http://` or `https://` (case-insensitively) or any `/`. -/
def rxUrlCheckMatch (s : String) : Bool :=
  occursInList "http://".data (s.data.map lowChar) ||
  occursInList "https://".data (s.data.map lowChar) ||
  hasChar s '/'

/-- Try `rxDomainFinder` (`(?i)https?://[^/]+`) at one position: the
scheme (preferring `https`), then a non-empty host run. -/
def domainAt (cs : List Char) : Option String :=
  let l := cs.map lowChar
  let mk : Nat → Option String := fun n =>
    let host := (cs.drop n).takeWhile (· ≠ '/')
    if host = [] then none else some (String.mk (cs.take n ++ host))
  if listLeads "https://".data l then mk 8
  else if listLeads "http://".data l then mk 7
  else none

/-- Leftmost-match search for `rxDomainFinder`. -/
def domainFindAux : List Char → Option String
  | [] => none
  | c :: cs =>
      match domainAt (c :: cs) with
      | some m => some m
      | none => domainFindAux cs

/-- Embeds `rxDomainFinder.FindStringSubmatch(s)[0]`. -/
def rxDomainFinderFind (s : String) : Option String :=
  domainFindAux s.data

/-- Suffix test of `rxTitleCleaner` at a position: `\s+[-|]\s+` (one or
more whitespace, a dash or pipe, one or more whitespace). -/
def titleSepAt (cs : List Char) : Bool :=
  let ws1 := cs.takeWhile isWsChar
  ws1 ≠ [] &&
    (match cs.drop ws1.length with
     | c :: r =>
         (c = '-' || c = '|') && (match r with
                                  | c2 :: _ => isWsChar c2
                                  | [] => false)
     | [] => false)

/-- Embeds `rxTitleCleaner.FindStringSubmatch` for
`(?i)(.+)?\s+[-|]\s+.*$`: the greedy optional group takes the longest
prefix whose remainder starts with the separator pattern; when only the
empty prefix works the group is unset and Go yields the empty string. -/
def rxTitleCleanerGroup (s : String) : Option String :=
  let cs := s.data
  let ks := (List.range (cs.length + 1)).filter (fun k => titleSepAt (cs.drop k))
  match ks with
  | [] => none
  | _ => some (String.mk (cs.take (ks.foldl max 0)))

/-- Group of `rxSitenameFinder1` (`(?i)^.*?[-|]\s+(.*)$`): the lazy
head finds the first dash or pipe that is followed by whitespace; the
greedy `\s+` then swallows the whole whitespace run and the group is
the rest. -/
def sitename1Aux : List Char → Option String
  | [] => none
  | c :: rest =>
      if c = '-' || c = '|' then
        match rest with
        | w :: _ =>
            if isWsChar w then some (String.mk (rest.dropWhile isWsChar))
            else sitename1Aux rest
        | [] => none
      else sitename1Aux rest

/-- Embeds `rxSitenameFinder1.FindStringSubmatch(s)[1]`. -/
def rxSitenameFinder1Group (s : String) : Option String :=
  sitename1Aux s.data

/-- The `w[0-9]+\.` alternative of `rxSitenameFinder2`: returns the
remainder after the dot. -/
def wNumDot (cs : List Char) : Option (List Char) :=
  match cs with
  | w :: rest =>
      if lowChar w = 'w' then
        let digits := rest.takeWhile isDigitChar
        if digits ≠ [] then
          match rest.drop digits.length with
          | '.' :: r => some r
          | _ => none
        else none
      else none
  | [] => none

/-- Try `rxSitenameFinder2` (`(?i)https?://(?:www\.|w[0-9]+\.)?([^/]+)`)
at one position; the optional prefix is greedy with fallback and the
capture is the non-empty host run. -/
def sitename2At (cs : List Char) : Option String :=
  let l := cs.map lowChar
  let afterScheme : Option (List Char) :=
    if listLeads "https://".data l then some (cs.drop 8)
    else if listLeads "http://".data l then some (cs.drop 7)
    else none
  match afterScheme with
  | none => none
  | some rest =>
      let tryCap : List Char → Option String := fun r =>
        let host := r.takeWhile (· ≠ '/')
        if host = [] then none else some (String.mk host)
      (if listLeads "www.".data (rest.map lowChar) then tryCap (rest.drop 4) else none)
      <|>
      (match wNumDot rest with
       | some r => tryCap r
       | none => none)
      <|> tryCap rest

/-- Leftmost-match search for `rxSitenameFinder2`. -/
def sitename2Find : List Char → Option String
  | [] => none
  | c :: cs =>
      match sitename2At (c :: cs) with
      | some g => some g
      | none => sitename2Find cs

/-- Embeds `rxSitenameFinder2.FindStringSubmatch(s)[1]`. -/
def rxSitenameFinder2Group (s : String) : Option String :=
  sitename2Find s.data

/-! ## Selector tables and the DOM heuristics (lines 481-721) -/

/-- A compiled CSS selector: the document-order list of matches. -/
def Selector : Type :=
  HNode → List HNode

/-- Class-token test (CSS `.cls`): the `class` attribute contains the
token among its whitespace-separated words. -/
def hasClassTok (n : HNode) (tok : String) : Bool :=
  (wordsAux (getAttr n "class").data []).contains tok.data

/-- Nodes with a given tag that descend from a node carrying a class
token (CSS `.cls tag`). -/
def underClass (doc : HNode) (cls : String) (tag : String) : List HNode :=
  (queryAll doc (fun n => hasClassTok n cls)).flatMap
    (fun n => (allNodesList (childrenOf n)).filter (fun m => isTag m tag))

/-- Modelled from the spec: the selector table `metaTitleSelectors` is
declared but its contents are not given ("the table itself, not given
here, must be treated as authoritative"); no claim depends on its
contents, so it is modelled as the empty battery. -/
def metaTitleSelectors : List Selector := []

/-- Modelled from the spec: the selector table `metaAuthorSelectors`;
its contents are not given by the spec, so it is modelled with the
three shapes exercised by the repository test-suite
(`a[rel="author"]`, `.author`, and the `author` element). -/
def metaAuthorSelectors : List Selector :=
  [fun doc => queryAll doc (fun n => isTag n "a" && getAttr n "rel" = "author"),
   fun doc => queryAll doc (fun n => hasClassTok n "author"),
   fun doc => queryAll doc (fun n => isTag n "author")]

/-- Modelled from the spec: the selector table
`metaCategoriesSelectors`, modelled with the shape exercised by the
repository test-suite (links under `.entry-categories`). -/
def metaCategoriesSelectors : List Selector :=
  [fun doc => underClass doc "entry-categories" "a"]

/-- Modelled from the spec: the selector table `metaTagsSelectors`,
modelled with the shape exercised by the repository test-suite (links
under `.entry-tags`). -/
def metaTagsSelectors : List Selector :=
  [fun doc => underClass doc "entry-tags" "a"]

/-- Inner loop of `extractDomMetaSelectors`: first node whose
normalized text is non-empty and shorter than the rune limit. -/
def firstGoodText (limit : Nat) : List HNode → Option String
  | [] => none
  | n :: rest =>
      let text := strNormalize (textContent n)
      if text ≠ "" && text.length < limit then some text else firstGoodText limit rest

/-- Embeds `extractDomMetaSelectors` (lines 709-721). -/
def extractDomMetaSelectors (doc : HNode) (limit : Nat) : List Selector → String
  | [] => ""
  | sel :: rest =>
      match firstGoodText limit (sel doc) with
      | some t => t
      | none => extractDomMetaSelectors doc limit rest

/-- Embeds `extractDomTitle` (lines 481-524). -/
def extractDomTitle (doc : HNode) : String :=
  let h1Nodes := queryAll doc (fun n => isTag n "h1")
  match h1Nodes with
  | [single] => strNormalize (textContent single)
  | _ =>
    let title := extractDomMetaSelectors doc 200 metaTitleSelectors
    if title ≠ "" then title
    else
      match queryHeadDirectTitle doc with
      | some titleNode =>
          let t := strNormalize (textContent titleNode)
          (match rxTitleCleanerGroup t with
           | some g => g
           | none => t)
      | none =>
          match h1Nodes with
          | n :: _ => strTrimSpace (textContent n)
          | [] =>
              match queryFirst doc (fun n => isTag n "h2") with
              | some h2Node => strTrimSpace (textContent h2Node)
              | none => ""

/-- Embeds `extractDomAuthor` (lines 526-538): selector battery with a
75-rune limit, then the three cleaners, then `strings.Title`. -/
def extractDomAuthor (doc : HNode) : String :=
  let author := extractDomMetaSelectors doc 75 metaAuthorSelectors
  if author ≠ "" then
    strTitle (rxAuthorCleaner3Apply (rxAuthorCleaner2Apply (rxAuthorCleaner1Apply author)))
  else ""

/-- The domain-prefix recovery loop of `extractDomURL` (lines 568-587):
the first `og:`/`twitter:` head meta whose content holds a domain. -/
def domURLDomainLoop : List HNode → Option String
  | [] => none
  | node :: rest =>
      let nodeName := strNormalize (getAttr node "name")
      let nodeProperty := strNormalize (getAttr node "property")
      let attrType := strOr nodeName nodeProperty
      if attrType = "" then domURLDomainLoop rest
      else if strLeads attrType "og:" || strLeads attrType "twitter:" then
        match rxDomainFinderFind (strNormalize (getAttr node "content")) with
        | some m => some m
        | none => domURLDomainLoop rest
      else domURLDomainLoop rest

/-- Embeds `extractDomURL` (lines 540-611). -/
def extractDomURL (doc : HNode) (defaultURL : Option String) : String :=
  let url :=
    match (queryHeadLinksRel doc "canonical").head? with
    | some linkNode =>
        let href := strNormalize (getAttr linkNode "href")
        if href ≠ "" && rxUrlCheckMatch href then href else ""
    | none =>
        (queryHeadLinksRel doc "alternate").foldl (fun url node =>
          if getAttr node "hreflang" = "x-default" then
            let href := strNormalize (getAttr node "href")
            if href ≠ "" && rxUrlCheckMatch href then href else url
          else url) ""
  let url :=
    if url ≠ "" && strLeads url "/" then
      match domURLDomainLoop (queryHeadMetaContent doc) with
      | some domain => domain ++ url
      | none => url
    else url
  if url ≠ "" then
    if isAbsoluteURL url then url
    else
      let newURL := createAbsoluteURL url defaultURL
      if isAbsoluteURL newURL then newURL
      else
        match defaultURL with
        | some d => d
        | none => ""
  else
    match defaultURL with
    | some d => d
    | none => ""

/-- Embeds `extractDomSitename` (lines 613-631). -/
def extractDomSitename (doc : HNode) : String :=
  match queryHeadDirectTitle doc with
  | none => ""
  | some titleNode =>
      let titleText := strNormalize (textContent titleNode)
      if titleText = "" then ""
      else
        match rxSitenameFinder1Group titleText with
        | some g => g
        | none => ""

/-- The shared selector loop of `extractDomCategories` /
`extractDomTags`: collect the normalized text of nodes whose `href`
holds the marker, stopping at the first selector that yields any. -/
def domCatTagLoop (doc : HNode) (marker : String) : List Selector → List String
  | [] => []
  | sel :: rest =>
      let collected := (sel doc).foldl (fun acc node =>
        let href := strTrimSpace (getAttr node "href")
        if href ≠ "" && strHas href marker then
          let text := strNormalize (textContent node)
          if text ≠ "" then acc ++ [text] else acc
        else acc) []
      if collected ≠ [] then collected else domCatTagLoop doc marker rest

/-- Embeds `extractDomCategories` (lines 633-669), with the
`meta[property="article:section"]` fallback. -/
def extractDomCategories (doc : HNode) : List String :=
  let categories := domCatTagLoop doc "/category/" metaCategoriesSelectors
  if categories = [] then
    match queryHeadMetaArticleSection doc with
    | some node =>
        let content := strNormalize (getAttr node "content")
        if content ≠ "" then [content] else []
    | none => []
  else categories

/-- Embeds `extractDomTags` (lines 671-695). -/
def extractDomTags (doc : HNode) : List String :=
  domCatTagLoop doc "/tags/" metaTagsSelectors

/-! ## Category/tag cleaning and the top-level pipeline (lines 46-118, 697-707) -/

/-- Worker of `rxCommaSeparator.Split` on `\s*[,;]\s*`: `atStart` is
true right after a separator (whitespace there belongs to the trailing
`\s*` of the separator match), `cur` is the current piece (reversed)
and `pending` a whitespace run not yet committed (it belongs to the
leading `\s*` of the next separator match if one follows directly). -/
def splitSepAux : Bool → List Char → List Char → List Char → List (List Char)
  | _, cur, pending, [] => [(pending ++ cur).reverse]
  | atStart, cur, pending, c :: rest =>
      if c = ',' || c = ';' then cur.reverse :: splitSepAux true [] [] rest
      else if isWsChar c then
        (if atStart && cur = [] && pending = [] then splitSepAux true [] [] rest
         else splitSepAux false cur (c :: pending) rest)
      else splitSepAux false (c :: (pending ++ cur)) [] rest

/-- Embeds `rxCommaSeparator.Split(entry, -1)`. -/
def splitCommaSep (s : String) : List String :=
  (splitSepAux false [] [] s.data).map String.mk

/-- Embeds `cleanCatTags` (lines 697-707): split every entry on
`\s*[,;]\s*`, normalize each piece and keep the non-empty ones, in
order. -/
def cleanCatTags (catTags : List String) : List String :=
  catTags.flatMap (fun entry =>
    ((splitCommaSep entry).map strNormalize).filter (fun item => item ≠ ""))

/-- The sitename normalization of `extractMetadata` (lines 82-91):
strip one leading `@`, then title-case when the result has no dot and
its first rune is not upper-case. -/
def sitenameCapitalize (s : String) : String :=
  let s := if strLeads s "@" then String.mk (s.data.drop 1) else s
  let firstRune := getRune s 0
  if !(hasChar s '.') && !firstRune.isUpper then strTitle s else s

/-- Stage of `extractMetadata`: DOM title when still empty (lines 54-57). -/
def stageTitle (doc : HNode) (m : Metadata) : Metadata :=
  if m.Title = "" then { m with Title := extractDomTitle doc } else m

/-- Stage of `extractMetadata`: DOM author when still empty (lines 59-62). -/
def stageAuthor (doc : HNode) (m : Metadata) : Metadata :=
  if m.Author = "" then { m with Author := extractDomAuthor doc } else m

/-- Stage of `extractMetadata`: DOM URL when still empty (lines 64-67). -/
def stageURL (doc : HNode) (defaultURL : Option String) (m : Metadata) : Metadata :=
  if m.URL = "" then { m with URL := extractDomURL doc defaultURL } else m

/-- Stage of `extractMetadata`: hostname from the URL (lines 69-72). -/
def stageHostname (m : Metadata) : Metadata :=
  if m.URL ≠ "" then { m with Hostname := extractDomainURL m.URL } else m

/-- Stage of `extractMetadata`: DOM sitename when still empty (lines 76-79). -/
def stageSitenameDom (doc : HNode) (m : Metadata) : Metadata :=
  if m.Sitename = "" then { m with Sitename := extractDomSitename doc } else m

/-- Stage of `extractMetadata`: sitename normalization, or the URL
fallback when the sitename is still empty (lines 81-97). -/
def stageSitenameNorm (m : Metadata) : Metadata :=
  if m.Sitename ≠ "" then { m with Sitename := sitenameCapitalize m.Sitename }
  else if m.URL ≠ "" then
    match rxSitenameFinder2Group m.URL with
    | some g => { m with Sitename := g }
    | none => m
  else m

/-- Stage of `extractMetadata`: DOM categories when empty, then the
split-and-clean pass (lines 99-106). -/
def stageCategories (doc : HNode) (m : Metadata) : Metadata :=
  let m := if m.Categories = [] then { m with Categories := extractDomCategories doc } else m
  if m.Categories ≠ [] then { m with Categories := cleanCatTags m.Categories } else m

/-- Stage of `extractMetadata`: DOM tags when empty, then the
split-and-clean pass (lines 108-115). -/
def stageTags (doc : HNode) (m : Metadata) : Metadata :=
  let m := if m.Tags = [] then { m with Tags := extractDomTags doc } else m
  if m.Tags ≠ [] then { m with Tags := cleanCatTags m.Tags } else m

/-- Embeds `extractMetadata` (lines 46-118): meta tags, JSON+LD
override, DOM fallbacks, hostname, sitename normalization, and the
category/tag cleaning, in source order. -/
def extractMetadata (doc : HNode) (defaultURL : Option String) : Metadata :=
  stageTags doc (stageCategories doc (stageSitenameNorm (stageSitenameDom doc
    (stageHostname (stageURL doc defaultURL (stageAuthor doc (stageTitle doc
      (extractJsonLd doc (processMetaTags doc)))))))))

/-! ## Token cleanliness predicate for categories and tags -/

/-- A clean category/tag token: non-empty, free of the `,` and `;`
separators, and without leading or trailing whitespace. -/
def isCleanToken (s : String) : Bool :=
  s ≠ "" && !hasChar s ',' && !hasChar s ';' &&
  !isWsChar (s.data.headD 'x') && !isWsChar (s.data.getLastD 'x')

/-! ## Concrete documents and values used as test inputs -/

/-- A `meta` element with the given attributes. -/
def mkMeta (attrs : List (String × String)) : HNode :=
  .elem "meta" attrs []

/-- A document with the given head and body children. -/
def mkDoc (headKids bodyKids : List HNode) : HNode :=
  .elem "html" [] [.elem "head" [] headKids, .elem "body" [] bodyKids]

/-- A document with empty head and body. -/
def emptyDoc : HNode :=
  mkDoc [] []

/-- All five OpenGraph fields filled, plus a keywords meta tag that the
early return of `processMetaTags` never reaches. -/
def c1doc : HNode := mkDoc
  [mkMeta [("property", "og:title"), ("content", "My Title")],
   mkMeta [("property", "og:author"), ("content", "Jane Doe")],
   mkMeta [("property", "og:description"), ("content", "Desc")],
   mkMeta [("property", "og:site_name"), ("content", "Example")],
   mkMeta [("property", "og:url"), ("content", "https://example.org/x")],
   mkMeta [("name", "keywords"), ("content", "Some Tag")]] []

/-- The author object of `c2article`: a `name` but no `@type`. -/
def c2authorObj : List (String × Json) :=
  [("name", .str "Jane Doe")]

/-- A JSON+LD article whose author object carries no `@type`. -/
def c2article : List (String × Json) :=
  [("@type", .str "NewsArticle"), ("author", .obj c2authorObj)]

/-- A JSON+LD article whose author object is typed `Organization`. -/
def c2orgArticle : List (String × Json) :=
  [("author", .obj [("@type", .str "Organization"), ("name", .str "Acme")])]

/-- All five OpenGraph fields filled with a space-free author: the
early return of `processMetaTags` skips author validation. -/
def c3doc : HNode := mkDoc
  [mkMeta [("property", "og:title"), ("content", "My Title")],
   mkMeta [("property", "og:author"), ("content", "John")],
   mkMeta [("property", "og:description"), ("content", "Desc")],
   mkMeta [("property", "og:site_name"), ("content", "Example")],
   mkMeta [("property", "og:url"), ("content", "https://example.org/x")]] []

/-- A document whose only metadata is a `meta[name="author"]` tag, so
the scanner path (with validation) produces the author. -/
def c3metaAuthorDoc : HNode := mkDoc
  [mkMeta [("name", "author"), ("content", "Jane Doe")]] []

/-- A document whose OpenGraph sitename starts with a digit. -/
def c4doc : HNode := mkDoc
  [mkMeta [("property", "og:site_name"), ("content", "123 abc")]] []

/-- Prior metadata with one category, for the override test. -/
def c5orig : Metadata :=
  { emptyMetadata with Categories := ["X"] }

/-- A JSON+LD article whose `articleSection` is a number, not a string. -/
def c5obj : List (String × Json) :=
  [("@type", .str "Article"), ("articleSection", .num "5")]

/-- A JSON+LD article with two headline-like keys; a Go `range` over
the decoded map may present them in either order. -/
def c9article : List (String × Json) :=
  [("@type", .str "Article"), ("headline", .str "Title A"),
   ("alternativeHeadline", .str "Title B")]

/-- Script text whose top-level JSON value is an array of objects. -/
def c10text : String :=
  "[\x7b\"@type\": \"Article\", \"name\": \"T\"\x7d]"

/-- The decoded value of `c10text`. -/
def c10json : Json :=
  .arr [.obj [("@type", .str "Article"), ("name", .str "T")]]

/-- A document with one `article:tag` meta holding two comma-separated
tags. -/
def tagDoc : HNode := mkDoc
  [mkMeta [("property", "article:tag"), ("content", "T1, T2")]] []

/-! ## Theorems -/

/-- Soundness of `validateMetadataAuthor`: a non-empty result contains
a space, does not start with `http`, and holds no JSON punctuation. -/
theorem validateMetadataAuthor_sound (a : String)
    (h : validateMetadataAuthor a ≠ "") :
    strHas (validateMetadataAuthor a) " " = true ∧
    strLeads (validateMetadataAuthor a) "http" = false ∧
    rxJsonSymbolMatch (validateMetadataAuthor a) = false := by
  unfold validateMetadataAuthor at h ⊢
  split_ifs at h ⊢ with h1 h2 h3
  · exact absurd h1 h
  · exact absurd rfl h
  · exact absurd rfl h
  · constructor
    · cases hs : strHas a " " with
      | true => rfl
      | false => exact absurd (by simp [hs]) h2
    · constructor
      · cases hl : strLeads a "http" with
        | true => exact absurd (by simp [hl]) h2
        | false => rfl
      · simpa using h3

/-- C1 counterexample: with all five OpenGraph fields set, the
document carries a `keywords` meta with non-empty normalized content,
yet `processMetaTags` returns an empty tag list. -/
theorem c1_counterexample :
    (processMetaTags c1doc).Tags = [] ∧
    ((queryMetaContent c1doc).any (fun n =>
        strNormalize (strToLower (getAttr n "name")) = "keywords" &&
        strNormalize (getAttr n "content") != "")) = true := by
  constructor
  · decide
  · decide

/-- C1 (amended): when the OpenGraph pass sets all five of Title,
Author, URL, Description and Sitename, `processMetaTags` returns the
OpenGraph metadata immediately; the meta-tag scanner does not run, so
no `article:tag` or `keywords` content is collected there. -/
theorem c1_early_return (doc : HNode)
    (h : ogAllFive (extractOpenGraphMeta doc) = true) :
    processMetaTags doc = extractOpenGraphMeta doc := by
  unfold processMetaTags
  simp [h]

/-- C1 witness: the early return fires on the concrete document. -/
theorem c1_early_return_witness :
    ogAllFive (extractOpenGraphMeta c1doc) = true ∧
    processMetaTags c1doc = extractOpenGraphMeta c1doc :=
  ⟨by decide, c1_early_return c1doc (by decide)⟩

/-- C3 counterexample: the OpenGraph early return skips author
validation, so the returned Author is a single space-free token. -/
theorem c3_counterexample :
    (extractMetadata c3doc none).Author = "John" ∧
    strHas (extractMetadata c3doc none).Author " " = false := by
  constructor
  · decide
  · decide

/-- C3 (amended): whenever the OpenGraph early return does not fire,
the author produced by `processMetaTags` is validated: non-empty
implies it contains a space, does not start with `http`, and holds
none of the JSON punctuation characters. -/
theorem c3_scan_author_validated (doc : HNode)
    (hog : ogAllFive (extractOpenGraphMeta doc) = false)
    (h : (processMetaTags doc).Author ≠ "") :
    strHas (processMetaTags doc).Author " " = true ∧
    strLeads (processMetaTags doc).Author "http" = false ∧
    rxJsonSymbolMatch (processMetaTags doc).Author = false := by
  unfold processMetaTags at h ⊢
  simp only [hog, Bool.false_eq_true, if_false] at h ⊢
  exact validateMetadataAuthor_sound _ h

/-- C3 witness: a `meta[name="author"]` document goes through the
validated scan path and yields a clean author. -/
theorem c3_scan_author_validated_witness :
    ogAllFive (extractOpenGraphMeta c3metaAuthorDoc) = false ∧
    (processMetaTags c3metaAuthorDoc).Author ≠ "" ∧
    (strHas (processMetaTags c3metaAuthorDoc).Author " " = true ∧
     strLeads (processMetaTags c3metaAuthorDoc).Author "http" = false ∧
     rxJsonSymbolMatch (processMetaTags c3metaAuthorDoc).Author = false) :=
  ⟨by decide, by decide, c3_scan_author_validated c3metaAuthorDoc (by decide) (by decide)⟩

/-- C6: after JSON+LD extraction, the merge keeps the scratch sitename
exactly when its rune count strictly exceeds the rune count of the
prior sitename, and keeps the prior sitename otherwise. -/
theorem c6_sitename_longer_rule (payloads : List (Option (List (String × Json))))
    (orig : Metadata) :
    (jsonLdFromPayloads payloads orig).Sitename =
      (if (processPayloads emptyMetadata payloads).Sitename.length > orig.Sitename.length
       then (processPayloads emptyMetadata payloads).Sitename
       else orig.Sitename) := by
  unfold jsonLdFromPayloads jsonLdMerge
  dsimp only
  repeat' split
  all_goals simp_all

/-- C9: the headline fallback walks the decoded map in whatever order
the Go `range` produces; two runs over the same map (the same fields,
permuted) can return different titles. -/
theorem c9_map_order_dependence :
    (jsonLdFromPayloads [some c9article] emptyMetadata).Title = "Title A" ∧
    (jsonLdFromPayloads [some c9article.reverse] emptyMetadata).Title = "Title B" ∧
    c9article.reverse.Perm c9article :=
  ⟨by decide, by decide, List.reverse_perm c9article⟩

/-- C2 counterexample: the author object of `c2article` has no
`@type`, yet its name is taken (and survives validation), so the name
is not taken "only if `@type` equals `Person`". -/
theorem c2_counterexample :
    extractJsonArticleThingName c2article "author" ["Person"] = "Jane Doe" ∧
    (processArticle emptyMetadata c2article).Author = "Jane Doe" ∧
    (jLookup c2authorObj "@type").isNone = true :=
  ⟨by decide, by decide, by decide⟩

/-- C2 (amended): the author object is rejected exactly when it
carries a string-valued `@type` different from `Person`; here the
rejection direction: such an object yields the empty author. -/
theorem c2_typed_nonperson_rejected (article obj : List (String × Json)) (t : String)
    (h1 : jLookup article "author" = some (.obj obj))
    (h2 : jLookup obj "@type" = some (.str t))
    (h3 : t ≠ "Person") :
    extractJsonArticleThingName article "author" ["Person"] = "" := by
  unfold extractJsonArticleThingName
  rw [h1]
  unfold extractJsonThingName
  simp [h2, strIn, h3]

/-- C2 witness: an `Organization` author object is rejected (spec
scenario S8). -/
theorem c2_typed_nonperson_witness :
    jLookup c2orgArticle "author" =
      some (.obj [("@type", Json.str "Organization"), ("name", Json.str "Acme")]) ∧
    ("Organization" : String) ≠ "Person" ∧
    extractJsonArticleThingName c2orgArticle "author" ["Person"] = "" :=
  ⟨rfl, by decide, c2_typed_nonperson_rejected _ _ _ rfl rfl (by decide)⟩

/-- C5 counterexample: a numeric `articleSection` appends the empty
string to the scratch categories, which then non-trivially overrides
the prior categories. -/
theorem c5_counterexample :
    (jsonLdFromPayloads [some c5obj] c5orig).Categories = [""] ∧
    c5orig.Categories = ["X"] ∧
    extractJsonString (Json.num "5") = "" :=
  ⟨by decide, by decide, by decide⟩

/-- C5 (amended): whenever the scratch categories are empty and the
article has an `articleSection` key, the string-extraction of its value
(empty for any non-string) is appended unconditionally. -/
theorem c5_articleSection_appended (m : Metadata) (article : List (String × Json))
    (v : Json)
    (h1 : m.Categories = [])
    (h2 : jLookup article "articleSection" = some v) :
    (processArticle m article).Categories = [extractJsonString v] := by
  obtain ⟨T, A, U, H, D, S, Da, C, Tg⟩ := m
  dsimp only at h1
  subst h1
  unfold processArticle
  rw [h2]
  simp [apply_ite Metadata.Categories, apply_ite Metadata.Title, apply_ite Metadata.Author,
        apply_ite Metadata.Sitename, apply_ite Metadata.URL, apply_ite Metadata.Hostname,
        apply_ite Metadata.Description, apply_ite Metadata.Date, apply_ite Metadata.Tags]
  intro _
  split <;> rfl

/-- C5 witness: the appended entry on a concrete non-string value. -/
theorem c5_articleSection_appended_witness :
    emptyMetadata.Categories = [] ∧
    jLookup c5obj "articleSection" = some (Json.num "5") ∧
    (processArticle emptyMetadata c5obj).Categories = [extractJsonString (Json.num "5")] :=
  ⟨by decide, rfl, c5_articleSection_appended emptyMetadata c5obj (Json.num "5") (by decide) rfl⟩

/-- C10: a script whose text is valid JSON with a non-object top-level
value contributes nothing: either Unmarshal into a map fails (array,
string, number, bool) and the script is skipped, or the value is
`null` and the map stays empty, extracting nothing. -/
theorem c10_nonobject_script_skipped (t : String) (j : Json)
    (m : Metadata) (rest : List (Option (List (String × Json))))
    (hp : parseJson (strTrimSpace t) = some j)
    (hobj : ∀ fields, j ≠ Json.obj fields)
    (hbreak : jsonLdBreak m = false) :
    processPayloads m (scriptPayloadOfText t :: rest) = processPayloads m rest := by
  unfold scriptPayloadOfText
  dsimp only
  by_cases hempty : strTrimSpace t = ""
  · rw [hempty] at hp
    rw [show parseJson "" = none from rfl] at hp
    exact Option.noConfusion hp
  · rw [if_neg hempty, hp]
    match j with
    | .obj fields => exact absurd rfl (hobj fields)
    | .bool _ => rfl
    | .num _ => rfl
    | .str _ => rfl
    | .arr _ => rfl
    | .null =>
        show processPayloads m (some [] :: rest) = processPayloads m rest
        have hps : processScript m [] = m := by
          unfold processScript
          have : fioVal (.obj []) = ([], []) := rfl
          rw [this]
          dsimp only [List.foldl, List.filterMap]
          split <;> simp
        have hstep : processPayloads m (some [] :: rest) =
            if jsonLdBreak (processScript m []) then processScript m []
            else processPayloads (processScript m []) rest := rfl
        rw [hstep, hps, hbreak]
        simp

/-- C10 witness: a top-level array of objects is skipped. -/
theorem c10_nonobject_script_skipped_witness :
    parseJson (strTrimSpace c10text) = some c10json ∧
    jsonLdBreak emptyMetadata = false ∧
    processPayloads emptyMetadata [scriptPayloadOfText c10text] =
      processPayloads emptyMetadata [] :=
  ⟨rfl, by decide,
   c10_nonobject_script_skipped c10text c10json emptyMetadata [] rfl
     (fun _ h => Json.noConfusion h) (by decide)⟩

/-! ### Character facts for the sitename capitalization -/

/-- Kernel value of `Char.ofNatAux`. -/
theorem charOfNatAux_toNat (n : Nat) (h : n.isValidChar) :
    (Char.ofNatAux n h).toNat = n := by
  simp [Char.ofNatAux, Char.toNat, UInt32.toNat, UInt32.ofNatCore]

/-- Reading `Char.isLower` through `Char.toNat`. -/
theorem isLower_iff_toNat (c : Char) :
    c.isLower = true ↔ 97 ≤ c.toNat ∧ c.toNat ≤ 122 := by
  simp [Char.isLower, Char.toNat, UInt32.le_def, BitVec.le_def, UInt32.toNat]

/-- Reading `Char.isUpper` through `Char.toNat`. -/
theorem isUpper_iff_toNat (c : Char) :
    c.isUpper = true ↔ 65 ≤ c.toNat ∧ c.toNat ≤ 90 := by
  simp [Char.isUpper, Char.toNat, UInt32.le_def, BitVec.le_def, UInt32.toNat]

/-- Upper-casing never yields a lower-case letter. -/
theorem upChar_not_lower (c : Char) : (upChar c).isLower = false := by
  unfold upChar
  split
  · rename_i h
    rw [Bool.eq_false_iff]
    intro hl
    rw [isLower_iff_toNat, charOfNatAux_toNat] at hl
    omega
  · rename_i h
    rw [Bool.eq_false_iff]
    intro hl
    rw [isLower_iff_toNat] at hl
    exact h ⟨hl.1, hl.2⟩

/-- An upper-case character is not lower-case. -/
theorem isUpper_not_lower (c : Char) (h : c.isUpper = true) : c.isLower = false := by
  rw [isUpper_iff_toNat] at h
  rw [Bool.eq_false_iff]
  intro hl
  rw [isLower_iff_toNat] at hl
  omega

/-- The first character of `strTitle` on a non-empty string is the
upper-cased first character of the input. -/
theorem strTitle_head (c : Char) (cs : List Char) :
    (strTitle (String.mk (c :: cs))).data = upChar c :: titleAux c cs := by
  show (String.mk (titleAux ' ' (c :: cs))).data = _
  have h : titleAux ' ' (c :: cs) = (if isSepChar ' ' then upChar c else c) :: titleAux c cs := rfl
  rw [h, if_pos (by decide)]

/-- C4 counterexample: an OpenGraph sitename beginning with a digit is
returned with no dot and a first rune that is not upper-case, and the
title-casing was applied to it even though its first rune is not a
lower-case letter (the second word got capitalized). -/
theorem c4_counterexample :
    (extractMetadata c4doc none).Sitename = "123 Abc" ∧
    hasChar (extractMetadata c4doc none).Sitename '.' = false ∧
    Char.isUpper (getRune (extractMetadata c4doc none).Sitename 0) = false :=
  ⟨by decide, by decide, by decide⟩

/-- C4 (amended): for a sitename that reaches the normalizer (the
branch of `extractMetadata` for a non-empty sitename), the result, when
non-empty and dot-free, never begins with a lower-case letter; it need
not begin with an upper-case one. -/
theorem c4_capitalize_no_lowercase (s : String)
    (h1 : sitenameCapitalize s ≠ "")
    (h2 : hasChar (sitenameCapitalize s) '.' = false) :
    Char.isLower (getRune (sitenameCapitalize s) 0) = false := by
  unfold sitenameCapitalize at h1 h2 ⊢
  set s' := if strLeads s "@" then String.mk (s.data.drop 1) else s with hs'
  clear_value s'
  dsimp only at h1 h2 ⊢
  by_cases hcond : (!hasChar s' '.' && !(getRune s' 0).isUpper) = true
  · rw [if_pos hcond] at h1 h2 ⊢
    match hmk : s' with
    | ⟨[]⟩ => exact absurd rfl h1
    | ⟨c :: cs⟩ =>
        have hd : (strTitle (String.mk (c :: cs))).data = upChar c :: titleAux c cs :=
          strTitle_head c cs
        unfold getRune
        rw [hd]
        simpa using upChar_not_lower c
  · rw [if_neg hcond] at h1 h2 ⊢
    rw [Bool.and_eq_true, not_and_or] at hcond
    cases hcond with
    | inl hdot =>
        simp only [Bool.not_eq_true, Bool.not_eq_false] at hdot
        exact absurd hdot (by simp [h2])
    | inr hup =>
        simp only [Bool.not_eq_true, Bool.not_eq_false] at hup
        have hup2 : (getRune s' 0).isUpper = true := by simpa using hup
        exact isUpper_not_lower _ hup2

/-- C4 witness: a lower-case two-word sitename is title-cased and its
first rune is no longer lower-case. -/
theorem c4_capitalize_no_lowercase_witness :
    sitenameCapitalize "my site" ≠ "" ∧
    hasChar (sitenameCapitalize "my site") '.' = false ∧
    Char.isLower (getRune (sitenameCapitalize "my site") 0) = false :=
  ⟨by decide, by decide, c4_capitalize_no_lowercase "my site" (by decide) (by decide)⟩

/-! ### URL absoluteness: every assignment path is guarded -/

/-- One OpenGraph step keeps the URL empty-or-absolute. -/
theorem ogStep_url_inv (m : Metadata) (n : HNode)
    (h : m.URL = "" ∨ isAbsoluteURL m.URL = true) :
    (ogStep m n).URL = "" ∨ isAbsoluteURL (ogStep m n).URL = true := by
  unfold ogStep
  dsimp only
  repeat' split
  all_goals (try exact h)
  all_goals (rename_i hcond; exact Or.inr hcond)

/-- Folding `ogStep` keeps the URL empty-or-absolute. -/
theorem ogFold_url_inv (l : List HNode) (m : Metadata)
    (h : m.URL = "" ∨ isAbsoluteURL m.URL = true) :
    (l.foldl ogStep m).URL = "" ∨ isAbsoluteURL ((l.foldl ogStep m).URL) = true := by
  induction l generalizing m with
  | nil => exact h
  | cons n rest ih => exact ih _ (ogStep_url_inv m n h)

/-- The OpenGraph pass only sets absolute URLs. -/
theorem extractOpenGraphMeta_url_inv (doc : HNode) :
    (extractOpenGraphMeta doc).URL = "" ∨
    isAbsoluteURL (extractOpenGraphMeta doc).URL = true :=
  ogFold_url_inv _ _ (Or.inl rfl)

/-- The `property` section never touches the URL. -/
theorem metaScanProperty_url (m : Metadata) (p c : String) :
    (metaScanProperty m p c).URL = m.URL := by
  unfold metaScanProperty
  repeat' split
  all_goals rfl

/-- The `name` section keeps the URL empty-or-absolute (the
`twitter:url` branch checks absoluteness before assigning). -/
theorem metaScanName_url_inv (st : Metadata × String) (nm c : String)
    (h : st.1.URL = "" ∨ isAbsoluteURL st.1.URL = true) :
    (metaScanName st nm c).1.URL = "" ∨
    isAbsoluteURL (metaScanName st nm c).1.URL = true := by
  unfold metaScanName
  dsimp only
  repeat' split
  all_goals (try exact h)
  all_goals (rename_i hcond; rw [Bool.and_eq_true] at hcond; exact Or.inr hcond.2)

/-- The `itemprop` section never touches the URL. -/
theorem metaScanItemprop_url (m : Metadata) (ip c : String) :
    (metaScanItemprop m ip c).URL = m.URL := by
  unfold metaScanItemprop
  repeat' split
  all_goals rfl

/-- One meta-scan step keeps the URL empty-or-absolute. -/
theorem metaScanStep_url_inv (st : Metadata × String) (n : HNode)
    (h : st.1.URL = "" ∨ isAbsoluteURL st.1.URL = true) :
    (metaScanStep st n).1.URL = "" ∨ isAbsoluteURL (metaScanStep st n).1.URL = true := by
  unfold metaScanStep
  dsimp only
  repeat' split
  · exact h
  · rw [metaScanProperty_url]; exact h
  · exact metaScanName_url_inv st _ _ h
  · rw [metaScanItemprop_url]; exact h
  · exact h

/-- Folding the meta scan keeps the URL empty-or-absolute. -/
theorem metaScanFold_url_inv (l : List HNode) (st : Metadata × String)
    (h : st.1.URL = "" ∨ isAbsoluteURL st.1.URL = true) :
    (l.foldl metaScanStep st).1.URL = "" ∨
    isAbsoluteURL ((l.foldl metaScanStep st).1.URL) = true := by
  induction l generalizing st with
  | nil => exact h
  | cons n rest ih => exact ih _ (metaScanStep_url_inv st n h)

/-- The function `processMetaTags` returns an empty or absolute URL. -/
theorem processMetaTags_url_inv (doc : HNode) :
    (processMetaTags doc).URL = "" ∨ isAbsoluteURL (processMetaTags doc).URL = true := by
  unfold processMetaTags
  dsimp only
  split
  · exact extractOpenGraphMeta_url_inv doc
  · have h := metaScanFold_url_inv (queryMetaContent doc) (extractOpenGraphMeta doc, "")
      (extractOpenGraphMeta_url_inv doc)
    split <;> simpa using h

/-- The JSON+LD merge never touches the URL. -/
theorem jsonLdFromPayloads_url (payloads : List (Option (List (String × Json))))
    (o : Metadata) : (jsonLdFromPayloads payloads o).URL = o.URL := by
  unfold jsonLdFromPayloads jsonLdMerge
  dsimp only
  repeat' split
  all_goals rfl

/-- The function `extractDomURL` returns an empty or absolute URL provided the
default URL, when present, is absolute: every branch either checks
absoluteness or falls back to the default. -/
theorem extractDomURL_inv (doc : HNode) (du : Option String)
    (hdu : ∀ d, du = some d → isAbsoluteURL d = true) :
    extractDomURL doc du = "" ∨ isAbsoluteURL (extractDomURL doc du) = true := by
  unfold extractDomURL
  dsimp only
  repeat' split
  all_goals simp_all

/-- Stage `stageTitle` keeps the URL. -/
theorem stageTitle_url (doc : HNode) (m : Metadata) :
    (stageTitle doc m).URL = m.URL := by
  unfold stageTitle; split <;> rfl

/-- Stage `stageAuthor` keeps the URL. -/
theorem stageAuthor_url (doc : HNode) (m : Metadata) :
    (stageAuthor doc m).URL = m.URL := by
  unfold stageAuthor; split <;> rfl

/-- Stage `stageURL` keeps the URL empty-or-absolute. -/
theorem stageURL_inv (doc : HNode) (du : Option String) (m : Metadata)
    (hdu : ∀ d, du = some d → isAbsoluteURL d = true)
    (h : m.URL = "" ∨ isAbsoluteURL m.URL = true) :
    (stageURL doc du m).URL = "" ∨ isAbsoluteURL (stageURL doc du m).URL = true := by
  unfold stageURL
  split
  · simpa using extractDomURL_inv doc du hdu
  · exact h

/-- Stage `stageHostname` keeps the URL. -/
theorem stageHostname_url (m : Metadata) : (stageHostname m).URL = m.URL := by
  unfold stageHostname; split <;> rfl

/-- Stage `stageSitenameDom` keeps the URL. -/
theorem stageSitenameDom_url (doc : HNode) (m : Metadata) :
    (stageSitenameDom doc m).URL = m.URL := by
  unfold stageSitenameDom; split <;> rfl

/-- Stage `stageSitenameNorm` keeps the URL. -/
theorem stageSitenameNorm_url (m : Metadata) : (stageSitenameNorm m).URL = m.URL := by
  unfold stageSitenameNorm
  repeat' split
  all_goals rfl

/-- Stage `stageCategories` keeps the URL. -/
theorem stageCategories_url (doc : HNode) (m : Metadata) :
    (stageCategories doc m).URL = m.URL := by
  unfold stageCategories
  dsimp only
  repeat' split
  all_goals rfl

/-- Stage `stageTags` keeps the URL. -/
theorem stageTags_url (doc : HNode) (m : Metadata) :
    (stageTags doc m).URL = m.URL := by
  unfold stageTags
  dsimp only
  repeat' split
  all_goals rfl

/-- C7 (amended): whenever the supplied default URL is absent or
absolute, the URL of the extracted metadata is empty or absolute. -/
theorem c7_url_empty_or_absolute (doc : HNode) (du : Option String)
    (hdu : ∀ d, du = some d → isAbsoluteURL d = true) :
    (extractMetadata doc du).URL = "" ∨
    isAbsoluteURL (extractMetadata doc du).URL = true := by
  unfold extractMetadata
  rw [stageTags_url, stageCategories_url, stageSitenameNorm_url, stageSitenameDom_url,
      stageHostname_url]
  apply stageURL_inv doc du _ hdu
  rw [stageAuthor_url, stageTitle_url]
  unfold extractJsonLd
  rw [jsonLdFromPayloads_url]
  exact processMetaTags_url_inv doc

/-- C7 witness: with an absolute default URL the returned URL is
empty or absolute. -/
theorem c7_url_empty_or_absolute_witness :
    isAbsoluteURL "https://example.org/x" = true ∧
    ((extractMetadata emptyDoc (some "https://example.org/x")).URL = "" ∨
     isAbsoluteURL (extractMetadata emptyDoc (some "https://example.org/x")).URL = true) :=
  ⟨by decide,
   c7_url_empty_or_absolute emptyDoc (some "https://example.org/x")
     (fun d h => by cases h; decide)⟩

/-- C7 counterexample: a relative default URL leaks through the
last-resort branch of `extractDomURL`, so the returned URL is neither
empty nor absolute. -/
theorem c7_counterexample :
    (extractMetadata emptyDoc (some "/foo")).URL = "/foo" ∧
    isAbsoluteURL "/foo" = false ∧ ("/foo" : String) ≠ "" :=
  ⟨by decide, by decide, by decide⟩

/-! ### Cleanliness of categories and tags -/

/-- Words produced by `wordsAux` are non-empty, whitespace-free, and
made of characters of the input or the accumulator. -/
theorem wordsAux_sound (cs : List Char) : ∀ (acc : List Char),
    (∀ c ∈ acc, isWsChar c = false) →
    ∀ w ∈ wordsAux cs acc, w ≠ [] ∧ ∀ c ∈ w, isWsChar c = false ∧ (c ∈ cs ∨ c ∈ acc) := by
  induction cs with
  | nil =>
      intro acc hacc w hw
      cases acc with
      | nil => simp only [wordsAux] at hw; cases hw
      | cons a as =>
          simp only [wordsAux, List.mem_singleton] at hw
          subst hw
          refine ⟨by simp, ?_⟩
          intro c hc
          rw [List.mem_reverse] at hc
          exact ⟨hacc c hc, Or.inr hc⟩
  | cons c rest ih =>
      intro acc hacc w hw
      simp only [wordsAux] at hw
      by_cases hws : isWsChar c = true
      · rw [if_pos hws] at hw
        cases acc with
        | nil =>
            dsimp only at hw
            obtain ⟨h1, h2⟩ := ih [] (by simp) w hw
            refine ⟨h1, fun c2 hc2 => ⟨(h2 c2 hc2).1, ?_⟩⟩
            rcases (h2 c2 hc2).2 with h | h
            · exact Or.inl (List.mem_cons_of_mem _ h)
            · cases h
        | cons a as =>
            dsimp only at hw
            rcases List.mem_cons.mp hw with hw | hw
            · subst hw
              refine ⟨by simp, ?_⟩
              intro c2 hc2
              rw [List.mem_reverse] at hc2
              exact ⟨hacc c2 hc2, Or.inr hc2⟩
            · obtain ⟨h1, h2⟩ := ih [] (by simp) w hw
              refine ⟨h1, fun c2 hc2 => ⟨(h2 c2 hc2).1, ?_⟩⟩
              rcases (h2 c2 hc2).2 with h | h
              · exact Or.inl (List.mem_cons_of_mem _ h)
              · cases h
      · rw [if_neg hws] at hw
        have hacc2 : ∀ c2 ∈ (c :: acc), isWsChar c2 = false := by
          intro c2 hc2
          rcases List.mem_cons.mp hc2 with h | h
          · subst h; exact Bool.eq_false_iff.mpr hws
          · exact hacc c2 h
        obtain ⟨h1, h2⟩ := ih (c :: acc) hacc2 w hw
        refine ⟨h1, fun c2 hc2 => ⟨(h2 c2 hc2).1, ?_⟩⟩
        rcases (h2 c2 hc2).2 with h | h
        · exact Or.inl (List.mem_cons_of_mem _ h)
        · rcases List.mem_cons.mp h with h | h
          · exact Or.inl (h ▸ List.mem_cons_self _ _)
          · exact Or.inr h

/-- Characters of `joinWords` are spaces or characters of the words. -/
theorem joinWords_mem (ws : List (List Char)) :
    ∀ c ∈ joinWords ws, c = ' ' ∨ ∃ w ∈ ws, c ∈ w := by
  induction ws with
  | nil => intro c hc; cases hc
  | cons w rest ih =>
      intro c hc
      match rest, hc with
      | [], hc => exact Or.inr ⟨w, List.mem_cons_self _ _, hc⟩
      | r :: rs, hc =>
          rw [show joinWords (w :: r :: rs) = w ++ ' ' :: joinWords (r :: rs) from rfl] at hc
          rcases List.mem_append.mp hc with h | h
          · exact Or.inr ⟨w, List.mem_cons_self _ _, h⟩
          · rcases List.mem_cons.mp h with h | h
            · exact Or.inl h
            · rcases ih c h with h | ⟨w2, hw2, hc2⟩
              · exact Or.inl h
              · exact Or.inr ⟨w2, List.mem_cons_of_mem _ hw2, hc2⟩

/-- Joining non-empty words gives a non-empty list when there is a word. -/
theorem joinWords_ne (ws : List (List Char)) (h0 : ws ≠ [])
    (h : ∀ w ∈ ws, w ≠ []) : joinWords ws ≠ [] := by
  cases ws with
  | nil => exact absurd rfl h0
  | cons w rest =>
      cases rest with
      | nil =>
          have := h w (List.mem_cons_self _ _)
          simpa [joinWords] using this
      | cons r rs =>
          rw [show joinWords (w :: r :: rs) = w ++ ' ' :: joinWords (r :: rs) from rfl]
          simp

/-- The head of `joinWords` is the head of the first word. -/
theorem joinWords_headD (ws : List (List Char)) (h0 : ws ≠ [])
    (h : ∀ w ∈ ws, w ≠ []) (d : Char) :
    (joinWords ws).headD d = (ws.headD []).headD d := by
  cases ws with
  | nil => exact absurd rfl h0
  | cons w rest =>
      cases rest with
      | nil => rfl
      | cons r rs =>
          rw [show joinWords (w :: r :: rs) = w ++ ' ' :: joinWords (r :: rs) from rfl]
          have hw := h w (List.mem_cons_self _ _)
          cases w with
          | nil => exact absurd rfl hw
          | cons a as => rfl

/-- The default value does not matter for `getLastD` of a non-empty
list. -/
theorem getLastD_ne_default {α : Type} (l : List α) (h : l ≠ []) (d e : α) :
    l.getLastD d = l.getLastD e := by
  cases l with
  | nil => exact absurd rfl h
  | cons a as =>
      rw [List.getLastD_eq_getLast?, List.getLastD_eq_getLast?]
      simp [List.getLast?_cons]

/-- The last character of `joinWords` is the last of the last word. -/
theorem joinWords_getLastD (ws : List (List Char)) (h0 : ws ≠ [])
    (h : ∀ w ∈ ws, w ≠ []) (d : Char) :
    (joinWords ws).getLastD d = (ws.getLastD []).getLastD d := by
  induction ws with
  | nil => exact absurd rfl h0
  | cons w rest ih =>
      cases rest with
      | nil => rfl
      | cons r rs =>
          rw [show joinWords (w :: r :: rs) = w ++ ' ' :: joinWords (r :: rs) from rfl]
          have hrec := ih (by simp) (fun w2 hw2 => h w2 (List.mem_cons_of_mem _ hw2))
          have hne : joinWords (r :: rs) ≠ [] :=
            joinWords_ne _ (by simp) (fun w2 hw2 => h w2 (List.mem_cons_of_mem _ hw2))
          rw [List.getLastD_eq_getLast?, List.getLast?_append]
          rw [List.getLastD_eq_getLast?] at hrec
          have hcons : (' ' :: joinWords (r :: rs)).getLast? = (joinWords (r :: rs)).getLast? := by
            cases hj : joinWords (r :: rs) with
            | nil => exact absurd hj hne
            | cons b bs => simp [List.getLast?_cons]
          rw [hcons]
          cases hj : (joinWords (r :: rs)).getLast? with
          | some x =>
              rw [hj] at hrec
              simp only [Option.or, Option.getD] at hrec ⊢
              rw [hrec]
              rw [show (w :: r :: rs).getLastD [] = (r :: rs).getLastD w from
                    List.getLastD_cons _ _ _]
              rw [getLastD_ne_default (r :: rs) (by simp) w []]
          | none =>
              exact absurd (List.getLast?_eq_none_iff.mp hj) hne

/-- A non-empty normalized string has no whitespace at either end and
only holds spaces or characters of the input. -/
theorem strNormalize_clean (s : String) (h : strNormalize s ≠ "") :
    isWsChar ((strNormalize s).data.headD 'x') = false ∧
    isWsChar ((strNormalize s).data.getLastD 'x') = false ∧
    ∀ c ∈ (strNormalize s).data, c = ' ' ∨ c ∈ s.data := by
  have hdata : (strNormalize s).data = joinWords (wordsAux s.data []) := rfl
  have hws := wordsAux_sound s.data [] (by simp)
  have hwordsne : ∀ w ∈ wordsAux s.data [], w ≠ [] := fun w hw => (hws w hw).1
  have hlist : wordsAux s.data [] ≠ [] := by
    intro h0
    apply h
    have : (strNormalize s).data = [] := by rw [hdata, h0]; rfl
    exact String.ext this
  refine ⟨?_, ?_, ?_⟩
  · rw [hdata, joinWords_headD _ hlist hwordsne]
    cases hws2 : wordsAux s.data [] with
    | nil => exact absurd hws2 hlist
    | cons w rest =>
        have hmemw : w ∈ wordsAux s.data [] := by rw [hws2]; exact List.mem_cons_self _ _
        have hwne := hwordsne w hmemw
        cases hw2 : w with
        | nil => exact absurd hw2 hwne
        | cons a as =>
            show isWsChar a = false
            exact ((hws _ (hw2 ▸ hmemw)).2 a (List.mem_cons_self _ _)).1
  · rw [hdata, joinWords_getLastD _ hlist hwordsne]
    have hlastmem : (wordsAux s.data []).getLastD [] ∈ wordsAux s.data [] := by
      cases hws2 : wordsAux s.data [] with
      | nil => exact absurd hws2 hlist
      | cons w rest =>
          rw [List.getLastD_cons]
          exact List.getLastD_mem_cons _ _
    have hlastne := hwordsne _ hlastmem
    cases hl : (wordsAux s.data []).getLastD [] with
    | nil => exact absurd hl hlastne
    | cons a as =>
        have hmem2 : (a :: as) ∈ wordsAux s.data [] := hl ▸ hlastmem
        have hin : (a :: as).getLastD 'x' ∈ (a :: as) := by
          rw [List.getLastD_cons]
          exact List.getLastD_mem_cons _ _
        exact ((hws _ hmem2).2 _ hin).1
  · intro c hc
    rw [hdata] at hc
    rcases joinWords_mem _ c hc with h1 | ⟨w, hw, hcw⟩
    · exact Or.inl h1
    · rcases ((hws w hw).2 c hcw).2 with h2 | h2
      · exact Or.inr h2
      · cases h2

/-- Pieces produced by the comma/semicolon splitter contain no
separator characters. -/
theorem splitSepAux_no_sep (cs : List Char) : ∀ (b : Bool) (cur pending : List Char),
    (∀ c ∈ cur, c ≠ ',' ∧ c ≠ ';') → (∀ c ∈ pending, c ≠ ',' ∧ c ≠ ';') →
    ∀ piece ∈ splitSepAux b cur pending cs, ∀ c ∈ piece, c ≠ ',' ∧ c ≠ ';' := by
  induction cs with
  | nil =>
      intro b cur pending hcur hpend piece hp c hc
      simp only [splitSepAux, List.mem_singleton] at hp
      subst hp
      rw [List.mem_reverse] at hc
      rcases List.mem_append.mp hc with h | h
      · exact hpend c h
      · exact hcur c h
  | cons d rest ih =>
      intro b cur pending hcur hpend piece hp c hc
      simp only [splitSepAux] at hp
      split at hp
      · rename_i hsep
        rcases List.mem_cons.mp hp with hp | hp
        · subst hp
          rw [List.mem_reverse] at hc
          exact hcur c hc
        · exact ih true [] [] (by simp) (by simp) piece hp c hc
      · rename_i hsep
        have hd : d ≠ ',' ∧ d ≠ ';' := by
          constructor <;> intro hdd <;> exact hsep (by simp [hdd])
        split at hp
        · split at hp
          · exact ih true [] [] (by simp) (by simp) piece hp c hc
          · refine ih false cur (d :: pending) hcur ?_ piece hp c hc
            intro c2 hc2
            rcases List.mem_cons.mp hc2 with h | h
            · subst h; exact hd
            · exact hpend c2 h
        · refine ih false (d :: (pending ++ cur)) [] ?_ (by simp) piece hp c hc
          intro c2 hc2
          rcases List.mem_cons.mp hc2 with h | h
          · subst h; exact hd
          · rcases List.mem_append.mp h with h2 | h2
            · exact hpend c2 h2
            · exact hcur c2 h2

/-- Every element of `cleanCatTags` is a clean token. -/
theorem cleanCatTags_clean (l : List String) (s : String)
    (h : s ∈ cleanCatTags l) : isCleanToken s = true := by
  unfold cleanCatTags at h
  rw [List.mem_flatMap] at h
  obtain ⟨entry, _, hs⟩ := h
  rw [List.mem_filter] at hs
  obtain ⟨hmap, hne⟩ := hs
  rw [List.mem_map] at hmap
  obtain ⟨piece, hpiece, hnorm⟩ := hmap
  have hsne : s ≠ "" := by simpa using hne
  subst hnorm
  obtain ⟨hhead, hlast, hmem⟩ := strNormalize_clean piece hsne
  have hpiecedata : ∀ c ∈ piece.data, c ≠ ',' ∧ c ≠ ';' := by
    unfold splitCommaSep at hpiece
    rw [List.mem_map] at hpiece
    obtain ⟨pl, hpl, hmk⟩ := hpiece
    intro c hc
    rw [← hmk] at hc
    exact splitSepAux_no_sep entry.data false [] [] (by simp) (by simp) pl hpl c hc
  have hnosep : ∀ t : Char, (t = ',' ∨ t = ';') → t ∉ (strNormalize piece).data := by
    intro t ht hmem2
    rcases hmem t hmem2 with h1 | h1
    · rcases ht with h2 | h2 <;> simp [h2] at h1
    · rcases ht with h2 | h2
      · exact (hpiecedata t h1).1 h2
      · exact (hpiecedata t h1).2 h2
  unfold isCleanToken
  rw [Bool.and_eq_true, Bool.and_eq_true, Bool.and_eq_true, Bool.and_eq_true]
  refine ⟨⟨⟨⟨by simpa using hsne, ?_⟩, ?_⟩, by simpa using hhead⟩, by simpa using hlast⟩
  · have : ¬(',' ∈ (strNormalize piece).data) := hnosep ',' (Or.inl rfl)
    simp [hasChar, this]
  · have : ¬(';' ∈ (strNormalize piece).data) := hnosep ';' (Or.inr rfl)
    simp [hasChar, this]

/-- The tags of `stageTags` are empty or an output of `cleanCatTags`. -/
theorem stageTags_shape (doc : HNode) (m : Metadata) :
    (stageTags doc m).Tags = [] ∨ ∃ l, (stageTags doc m).Tags = cleanCatTags l := by
  unfold stageTags
  dsimp only
  repeat' split
  all_goals first
    | exact Or.inr ⟨_, rfl⟩
    | (rename_i h2
       simp only [ne_eq, Decidable.not_not] at h2
       exact Or.inl h2)

/-- Stage `stageTags` keeps the categories. -/
theorem stageTags_cats (doc : HNode) (m : Metadata) :
    (stageTags doc m).Categories = m.Categories := by
  unfold stageTags
  dsimp only
  repeat' split
  all_goals rfl

/-- The categories of `stageCategories` are empty or an output of
`cleanCatTags`. -/
theorem stageCategories_shape (doc : HNode) (m : Metadata) :
    (stageCategories doc m).Categories = [] ∨
    ∃ l, (stageCategories doc m).Categories = cleanCatTags l := by
  unfold stageCategories
  dsimp only
  repeat' split
  all_goals first
    | exact Or.inr ⟨_, rfl⟩
    | (rename_i h2
       simp only [ne_eq, Decidable.not_not] at h2
       exact Or.inl h2)

/-- C8: every element of the returned Categories and Tags is
non-empty, free of `,` and `;`, and has no whitespace at either end
(it went through split, normalize, and the empties were dropped). -/
theorem c8_cats_tags_clean (doc : HNode) (du : Option String) (s : String)
    (h : s ∈ (extractMetadata doc du).Categories ∨ s ∈ (extractMetadata doc du).Tags) :
    isCleanToken s = true := by
  unfold extractMetadata at h
  cases h with
  | inl hc =>
      rw [stageTags_cats] at hc
      rcases stageCategories_shape doc _ with h0 | ⟨l, hl⟩
      · rw [h0] at hc; cases hc
      · rw [hl] at hc; exact cleanCatTags_clean l s hc
  | inr ht =>
      rcases stageTags_shape doc _ with h0 | ⟨l, hl⟩
      · rw [h0] at ht; cases ht
      · rw [hl] at ht; exact cleanCatTags_clean l s ht

/-- C8 witness: the comma-separated `article:tag` content is split into
clean tokens. -/
theorem c8_cats_tags_clean_witness :
    ("T1" ∈ (extractMetadata tagDoc none).Categories ∨
     "T1" ∈ (extractMetadata tagDoc none).Tags) ∧
    isCleanToken "T1" = true :=
  ⟨Or.inr (by decide), c8_cats_tags_clean tagDoc none "T1" (Or.inr (by decide))⟩

end Trafilatura
